import Mathlib

/-!
# NoahAid first-aid chat: matcher, highlighter and submit/completion transitions

A shallow embedding of `src/App.jsx`.

* JavaScript strings are modelled as lists of UTF-16 code units (`Str`); `utf16` turns a
  string literal of the source into that list.
* `String.prototype.toLowerCase` is a built-in of the language runtime, not code of the
  repository. The matcher therefore takes the lowercasing function as a parameter `lower`;
  general theorems hold for every `lower`. Concrete evaluations use `toLowerCase`, the
  restriction of the built-in to Basic Latin, and are only stated at inputs made of Basic
  Latin characters (plus characters without case), where the two agree.
* React state (`messages`, `input`, `typing`) and the queue of timers created by
  `setTimeout(..., 800)` are the fields of `State`; the event handlers are functions on it.
-/

namespace NoahAid

/-- A JavaScript string, as the list of its UTF-16 code units. -/
abbrev Str := List Nat

/-- The code units of one code point (a surrogate pair above the Basic Multilingual Plane). -/
def codeUnits (c : Char) : List Nat :=
  if c.toNat < 0x10000 then [c.toNat]
  else [0xD800 + (c.toNat - 0x10000) / 0x400, 0xDC00 + (c.toNat - 0x10000) % 0x400]

/-- The JavaScript string written as the literal `s`. -/
def utf16 (s : String) : Str := s.toList.flatMap codeUnits

/-- `s.includes(t)`: `t` occurs in `s` as a contiguous block. -/
def includes : Str → Str → Bool
  | [], t => t.isEmpty
  | c :: s, t => t.isPrefixOf (c :: s) || includes s t

/-- `String.prototype.toLowerCase` on Basic Latin: `A`..`Z` go to `a`..`z`, every other
code unit is kept. -/
def toLowerCase (s : Str) : Str := s.map fun n => if 65 ≤ n ∧ n ≤ 90 then n + 32 else n

/-- The code units removed by `String.prototype.trim` (ECMAScript `WhiteSpace` and
`LineTerminator`). -/
def isWhiteSpace (n : Nat) : Bool :=
  n == 0x09 || n == 0x0A || n == 0x0B || n == 0x0C || n == 0x0D || n == 0x20 ||
  n == 0xA0 || n == 0x1680 || (0x2000 ≤ n && n ≤ 0x200A) || n == 0x2028 || n == 0x2029 ||
  n == 0x202F || n == 0x205F || n == 0x3000 || n == 0xFEFF

/-- `s.trim()`: white space removed from both ends. -/
def trim (s : Str) : Str :=
  ((s.dropWhile isWhiteSpace).reverse.dropWhile isWhiteSpace).reverse

/-- One entry of `firstAidData`. -/
structure Topic where
  id : Str
  title : Str
  severity : Str
  keywords : List Str
  steps : List Str
  deriving DecidableEq, Repr

def bleeding : Topic where
  id := utf16 "bleeding"
  title := utf16 "Severe bleeding"
  severity := utf16 "high"
  keywords := ["bleed", "bleeds", "bleeding", "cut", "cuts", "wound", "wounds", "hemorrhage",
    "hemorrhages", "injury", "injuries", "laceration", "lacerations"].map utf16
  steps := [
    "Call emergency services immediately if bleeding is severe or spurting.",
    "Wear gloves if available.",
    "Apply firm, direct pressure to the wound with a clean cloth or bandage.",
    "Elevate the injured area above heart level if possible.",
    "Keep the person calm and monitor for signs of shock.",
    "Do not remove embedded objects — apply pressure around them."].map utf16

def choking : Topic where
  id := utf16 "choking"
  title := utf16 "Choking (conscious adult)"
  severity := utf16 "high"
  keywords := ["choke", "chokes", "choking", "airway", "airways", "can't breathe",
    "cannot breathe", "can't cough", "cannot cough", "obstruction", "obstructed"].map
    utf16
  steps := [
    "Ask 'Are you choking?' If they can cough or speak, encourage forceful coughing.",
    "If they cannot breathe, call emergency services immediately.",
    "Give 5 back blows between the shoulder blades.",
    "If still obstructed, give up to 5 abdominal thrusts (Heimlich maneuver).",
    "Alternate back blows and abdominal thrusts until object is dislodged or person becomes unconscious."].map
    utf16

def burn : Topic where
  id := utf16 "burn"
  title := utf16 "Thermal burn (minor)"
  severity := utf16 "medium"
  keywords := ["burn", "burns", "scald", "scalds", "hot", "thermal", "blister",
    "blisters"].map utf16
  steps := [
    "Remove the person from the source of heat.",
    "Cool the burn with running cool (not icy) water for 10-20 minutes.",
    "Remove tight items (rings, watch) from the burned area.",
    "Cover loosely with sterile, non-adhesive dressing.",
    "Do not apply creams, oils, or ice directly to the burn."].map utf16

def cpr : Topic where
  id := utf16 "cpr"
  title := utf16 "CPR (adult)"
  severity := utf16 "high"
  keywords := ["cpr", "no pulse", "not breathing", "cardiac arrest", "heart stopped",
    "resuscitation", "heart attack", "unconscious"].map utf16
  steps := [
    "Call emergency services immediately.",
    "Check responsiveness and breathing. If not breathing, start CPR.",
    "Place hands in the center of chest and give 30 chest compressions at 100-120/min, depth ~5-6 cm.",
    "After 30 compressions give 2 rescue breaths if trained.",
    "Continue cycles until help arrives or person recovers."].map utf16

/-- The knowledge base, in source order. -/
def firstAidData : List Topic := [bleeding, choking, burn, cpr]

/-- The predicate passed to `firstAidData.find` in `handleSend`, for the lowercased query
`q`: `item.keywords.some(k => q.includes(k)) || item.title.toLowerCase().includes(q)`. -/
def matchesItem (lower : Str → Str) (q : Str) (item : Topic) : Bool :=
  item.keywords.any (fun k => includes q k) || includes (lower item.title) q

/-- The matcher of `handleSend`: `q = input.toLowerCase()` and then
`data.find(item => ...)`; `none` stands for `undefined` (no match). -/
def findTopic (lower : Str → Str) (data : List Topic) (input : Str) : Option Topic :=
  let q := lower input
  data.find? (matchesItem lower q)

/-! ## The highlighter

`highlightKeywords` builds `new RegExp("(" + k + ")", "gi")` from each keyword and calls
`replace(regex, "<b>$1</b>")`. The regular-expression engine is a built-in of the runtime;
it is modelled for the patterns in which every character stands for exactly one code unit
of the text: a Basic Latin character that is not a pattern syntax character (matched
ignoring case), or the wildcard `.`. For every other keyword the model gives `none`. -/

/-- One pattern character: a literal, or the wildcard written `.`. -/
inductive Atom where
  | char (c : Nat)
  | any
  deriving DecidableEq, Repr

/-- The ECMAScript pattern `SyntaxCharacter`s: `^ $ \ . * + ? ( ) [ ] { } |`. -/
def isSyntaxCharacter (c : Nat) : Bool :=
  c == 0x5E || c == 0x24 || c == 0x5C || c == 0x2E || c == 0x2A || c == 0x2B || c == 0x3F ||
  c == 0x28 || c == 0x29 || c == 0x5B || c == 0x5D || c == 0x7B || c == 0x7D || c == 0x7C

/-- One character of a keyword read as a pattern character, when it is in the modelled
fragment. -/
def compileAtom (c : Nat) : Option Atom :=
  if c = 0x2E then some Atom.any
  else if isSyntaxCharacter c || 128 ≤ c then none
  else some (Atom.char c)

/-- The body of the pattern `(k)`, when `k` is in the modelled fragment. -/
def compile (k : Str) : Option (List Atom) := k.mapM compileAtom

/-- The regular-expression `Canonicalize` operation under the `i` flag, on Basic Latin:
`a`..`z` go to `A`..`Z`. A code unit from 128 on is never canonicalized to a Basic Latin
one, so it is kept: it is only ever compared with a Basic Latin pattern character. -/
def canonicalize (c : Nat) : Nat := if 97 ≤ c ∧ c ≤ 122 then c - 32 else c

/-- Whether a pattern character matches the code unit `c`. The wildcard matches everything
but the line terminators. -/
def Atom.matches : Atom → Nat → Bool
  | Atom.char p, c => canonicalize c == canonicalize p
  | Atom.any, c => !(c == 0x0A || c == 0x0D || c == 0x2028 || c == 0x2029)

/-- Whether the pattern matches at the start of `s`. -/
def matchesAt : List Atom → Str → Bool
  | [], _ => true
  | _ :: _, [] => false
  | a :: p, c :: s => a.matches c && matchesAt p s

/-- The opening emphasis tag `<b>`. -/
def tagOpen : Str := utf16 "<b>"

/-- The closing emphasis tag `</b>`. -/
def tagClose : Str := utf16 "</b>"

/-- The loop of `text.replace(regex, "<b>$1</b>")` with the `g` flag, from the current
position on: at a match the matched text is emitted between the tags and the scan goes on
after it (after one more code unit when the match is empty); otherwise one code unit is
copied. `fuel` bounds the number of positions visited. -/
def replaceLoop (p : List Atom) : Nat → Str → Str
  | 0, s => s
  | fuel + 1, s =>
    if matchesAt p s then
      tagOpen ++ s.take p.length ++ tagClose ++
        (if p.length = 0 then
          match s with
          | [] => []
          | c :: rest => c :: replaceLoop p fuel rest
        else replaceLoop p fuel (s.drop p.length))
    else
      match s with
      | [] => []
      | c :: rest => c :: replaceLoop p fuel rest

/-- The result of `text.replace(regex, "<b>$1</b>")` for the compiled pattern `p`: the loop
visits at most `text.length + 1` positions. -/
def replaceAll (p : List Atom) (text : Str) : Str := replaceLoop p (text.length + 1) text

/-- The function `highlightKeywords` of the source:
`keywords.forEach(k => highlighted = highlighted.replace(new RegExp("(" + k + ")", "gi"), "<b>$1</b>"))`. -/
def highlightKeywords (text : Str) (keywords : List Str) : Option Str :=
  keywords.foldlM (fun highlighted k => (compile k).map fun p => replaceAll p highlighted) text

/-! ## Conversation state and event handlers -/

/-- One entry of `messages`. -/
structure Message where
  type : Str
  text : Str
  deriving DecidableEq, Repr

/-- The React state of `App`, with the callbacks handed to `setTimeout` that have not run
yet, oldest first; each is represented by the value of `found` it has captured. All timers
have the same delay, so they fire in the order of their creation. -/
structure State where
  messages : List Message
  input : Str
  typing : Bool
  timers : List (Option Topic)
  deriving DecidableEq, Repr

/-- The state after the first render: `useState([])`, `useState("")`, `useState(false)`. -/
def State.init : State := { messages := [], input := [], typing := false, timers := [] }

/-- The text of the reply when nothing is found. -/
def fallbackText : Str :=
  utf16 "Sorry, I couldn't find a first-aid guide for that. Try another keyword."

/-- The state part of `handleInputChange`: `setInput(e.target.value)`. -/
def handleInputChange (value : Str) (s : State) : State := { s with input := value }

/-- The function `handleSend` of the source, up to and including the call of `setTimeout`. -/
def handleSend (lower : Str → Str) (s : State) : State :=
  if (trim s.input).isEmpty then s
  else
    { messages := s.messages ++ [{ type := utf16 "user", text := s.input }]
      input := []
      typing := true
      timers := s.timers ++ [findTopic lower firstAidData s.input] }

/-- The callback handed to `setTimeout` in `handleSend`, for the captured value `found`.
It gives `none` when a keyword of `found` is outside the modelled pattern fragment. -/
def timeoutCallback (found : Option Topic) (s : State) : Option State :=
  match found with
  | some item =>
    (item.steps.mapM fun step => highlightKeywords step item.keywords).map fun texts =>
      { s with
        messages := s.messages ++ texts.map fun text => { type := utf16 "bot", text := text }
        typing := false }
  | none =>
    some { s with
      messages := s.messages ++ [{ type := utf16 "bot", text := fallbackText }]
      typing := false }

/-- What can happen to the widget: the text area changes, a submit is triggered (the Send
button or Enter), or the oldest pending timer fires. -/
inductive Event where
  | change (value : Str)
  | send
  | timeout
  deriving DecidableEq, Repr

/-- One transition. A timeout is only possible while a timer is pending. -/
def step (lower : Str → Str) (s : State) : Event → Option State
  | Event.change value => some (handleInputChange value s)
  | Event.send => some (handleSend lower s)
  | Event.timeout =>
    match s.timers with
    | [] => none
    | found :: rest => timeoutCallback found { s with timers := rest }

/-- The state after a sequence of events, when each of them is possible. -/
def run (lower : Str → Str) (s : State) : List Event → Option State
  | [] => some s
  | e :: es => (step lower s e).bind fun s1 => run lower s1 es

/-! ## Properties used to state the claims -/

/-- Some keyword of the topic occurs in the (lowercased) query `q`. -/
def HasKeywordIn (q : Str) (item : Topic) : Prop := ∃ k ∈ item.keywords, k <:+: q

/-- The matching condition in the words of the specification: a keyword of the topic occurs
in the lowercased query `q`, or the lowercased title occurs in `q`. -/
def SpecMatches (lower : Str → Str) (q : Str) (item : Topic) : Prop :=
  HasKeywordIn q item ∨ lower item.title <:+: q

/-- The matching condition with the title test turned round: a keyword of the topic occurs in
the lowercased query `q`, or `q` occurs in the lowercased title. -/
def TitleContainsMatches (lower : Str → Str) (q : Str) (item : Topic) : Prop :=
  HasKeywordIn q item ∨ q <:+: lower item.title

/-- The keyword half of the matching condition: `item.keywords.some(k => q.includes(k))`. -/
def hasKeyword (q : Str) (item : Topic) : Bool := item.keywords.any fun k => includes q k

/-- The topic `item` is the first one of `data`, in list order, with the property `P`. -/
def IsFirstWith (P : Topic → Prop) (data : List Topic) (item : Topic) : Prop :=
  ∃ before after, data = before ++ item :: after ∧ P item ∧ ∀ other ∈ before, ¬ P other

/-- The string `o` is the keyword `k` when case is ignored. -/
def EqIgnoreCase (o k : Str) : Prop := o.map canonicalize = k.map canonicalize

/-- The keyword `k` occurs in `t`, case ignored. -/
def OccursIgnoreCase (k t : Str) : Prop := ∃ o, o <:+: t ∧ EqIgnoreCase o k

/-- The keyword `k` occurs at the start of `t`, case ignored. -/
def StartsWithIgnoreCase (k t : Str) : Prop := ∃ o, o <+: t ∧ EqIgnoreCase o k

/-- The highlighting of one keyword in the words of the specification, read from left to
right: `out` is `text` with the occurrences of `k` (case ignored) wrapped in `<b>`, `</b>` as
they are spelled in `text`, and everything else unchanged. Each wrapped occurrence is the
first one that starts in what follows the previous one, and what follows the last one
contains none. -/
inductive WrapsOccurrences (k : Str) : Str → Str → Prop
  | done (t : Str) : ¬ OccursIgnoreCase k t → WrapsOccurrences k t t
  | wrap (gap o rest out : Str) : EqIgnoreCase o k → ¬ OccursIgnoreCase k (gap ++ o.dropLast) →
      WrapsOccurrences k rest out →
      WrapsOccurrences k (gap ++ o ++ rest) (gap ++ tagOpen ++ o ++ tagClose ++ out)

/-- No keyword of a topic occurs in the lowercased title of a topic listed before it. -/
def noLaterKeywordInTitle : List Topic → Bool
  | [] => true
  | item :: rest =>
    rest.all (fun later => later.keywords.all fun k => !includes (toLowerCase item.title) k) &&
      noLaterKeywordInTitle rest

/-- The text `t` with every `<b>` and every `</b>` deleted, reading from left to right;
`skip` counts the code units of a tag that are still to be left out. -/
def stripTagsFrom : Nat → Str → Str
  | _, [] => []
  | skip + 1, _ :: s => stripTagsFrom skip s
  | 0, c :: s =>
    if tagOpen.isPrefixOf (c :: s) then stripTagsFrom 2 s
    else if tagClose.isPrefixOf (c :: s) then stripTagsFrom 3 s
    else c :: stripTagsFrom 0 s

/-- The text `t` with every `<b>` and every `</b>` deleted. -/
def stripTags (t : Str) : Str := stripTagsFrom 0 t

/-- The emphasis tags of `t` are balanced and never nested: reading from left to right, a
`<b>` is only met outside an emphasis, a `</b>` only inside one, and the text ends outside.
`inside` tells whether the text read so far ends inside an emphasis. -/
def tagsAlternate : Bool → Str → Bool
  | inside, [] => !inside
  | inside, c :: s =>
    if tagOpen.isPrefixOf (c :: s) then !inside && tagsAlternate true s
    else if tagClose.isPrefixOf (c :: s) then inside && tagsAlternate false s
    else tagsAlternate inside s

/-- The check of one step of a topic: its highlighted text gives the step back when the
tags are deleted, and its tags are balanced and never nested. -/
def stepHighlightClean (item : Topic) (step : Str) : Bool :=
  match highlightKeywords step item.keywords with
  | some out => stripTags out == step && tagsAlternate false out
  | none => false

/-- A word longer than the inside of a tag and without `<` and `>`, also when case is
ignored. -/
def PlainWord (X : Str) : Prop :=
  2 < X.length ∧ 0x3C ∉ X.map canonicalize ∧ 0x3E ∉ X.map canonicalize

/-! ## Lemmas on the string operations -/

theorem includes_iff (s t : Str) : includes s t = true ↔ t <:+: s := by
  induction s with
  | nil => simp [includes, List.isEmpty_iff]
  | cons c s ih => simp [includes, ih, List.infix_cons_iff]

theorem includes_refl (s : Str) : includes s s = true :=
  (includes_iff s s).2 List.infix_rfl

theorem hasKeyword_iff (q : Str) (item : Topic) :
    hasKeyword q item = true ↔ HasKeywordIn q item := by
  simp [hasKeyword, HasKeywordIn, includes_iff]

theorem matchesItem_eq (lower : Str → Str) (q : Str) (item : Topic) :
    matchesItem lower q item = (hasKeyword q item || includes (lower item.title) q) := rfl

theorem append_cons_left_unique {α : Type} (x : α) :
    ∀ (l₁ l₁' l₂ l₂' : List α), x ∉ l₁ → x ∉ l₁' → l₁ ++ x :: l₂ = l₁' ++ x :: l₂' → l₁ = l₁'
  | [], [], _, _, _, _, _ => rfl
  | [], y :: t, _, _, _, h', h => by
    simp only [List.nil_append, List.cons_append, List.cons.injEq] at h
    exact absurd (by simp [h.1]) h'
  | y :: t, [], _, _, h', _, h => by
    simp only [List.nil_append, List.cons_append, List.cons.injEq] at h
    exact absurd (by simp [h.1]) h'
  | y :: t, z :: u, l₂, l₂', h1, h2, h => by
    simp only [List.cons_append, List.cons.injEq] at h
    rw [h.1, append_cons_left_unique x t u l₂ l₂' (fun hm => h1 (List.mem_cons_of_mem _ hm))
      (fun hm => h2 (List.mem_cons_of_mem _ hm)) h.2]

theorem matchesItem_iff (lower : Str → Str) (q : Str) (item : Topic) :
    matchesItem lower q item = true ↔ TitleContainsMatches lower q item := by
  simp [matchesItem, TitleContainsMatches, HasKeywordIn, includes_iff]

theorem find?_eq_some_iff_isFirstWith (p : Topic → Bool) (P : Topic → Prop)
    (hp : ∀ item, p item = true ↔ P item) (data : List Topic) (item : Topic) :
    data.find? p = some item ↔ IsFirstWith P data item := by
  rw [List.find?_eq_some]
  constructor
  · rintro ⟨h, before, after, hd, hb⟩
    refine ⟨before, after, hd, (hp item).1 h, fun other ho hP => ?_⟩
    have := hb other ho
    rw [(hp other).2 hP] at this
    simp at this
  · rintro ⟨before, after, hd, h, hb⟩
    refine ⟨(hp item).2 h, before, after, hd, fun other ho => ?_⟩
    have : ¬ p other = true := fun hc => hb other ho ((hp other).1 hc)
    simpa using this

theorem trim_eq_nil (q : Str) (h : ∀ c ∈ q, isWhiteSpace c = true) : trim q = [] := by
  have : q.dropWhile isWhiteSpace = [] := List.dropWhile_eq_nil_iff.2 h
  simp [trim, this]

/-- For a knowledge base in which no keyword occurs in an earlier title, a query that
contains a keyword is resolved by the keywords alone. -/
theorem find?_matchesItem_eq_of_keyword (lower : Str → Str) (q : Str) :
    ∀ data : List Topic, noLaterKeywordInTitle data = true →
      (∀ item ∈ data, lower item.title = toLowerCase item.title) →
      (∃ item ∈ data, HasKeywordIn q item) →
      data.find? (matchesItem lower q) = data.find? (hasKeyword q)
  | [], _, _, h => by simp at h
  | item :: rest, hno, hl, h => by
    simp only [noLaterKeywordInTitle, Bool.and_eq_true, List.all_eq_true] at hno
    by_cases hk : hasKeyword q item = true
    · have hm : matchesItem lower q item = true := by simp [matchesItem_eq, hk]
      rw [List.find?_cons_of_pos _ hm, List.find?_cons_of_pos _ hk]
    · have hrest : ∃ other ∈ rest, HasKeywordIn q other := by
        obtain ⟨other, ho, hkw⟩ := h
        rcases List.mem_cons.1 ho with rfl | ho
        · exact absurd ((hasKeyword_iff q other).2 hkw) hk
        · exact ⟨other, ho, hkw⟩
      have hm : ¬ matchesItem lower q item = true := by
        intro hm
        simp only [matchesItem_eq, Bool.or_eq_true] at hm
        rcases hm with hm | hm
        · exact hk hm
        · obtain ⟨other, ho, k, hkmem, hkq⟩ := hrest
          have hqt : q <:+: toLowerCase item.title := by
            rw [← hl item (List.mem_cons_self _ _)]
            exact (includes_iff _ _).1 hm
          have hcontra := hno.1 other ho k hkmem
          rw [(includes_iff _ _).2 (hkq.trans hqt)] at hcontra
          simp at hcontra
      rw [List.find?_cons_of_neg _ hm, List.find?_cons_of_neg _ hk]
      exact find?_matchesItem_eq_of_keyword lower q rest hno.2
        (fun other ho => hl other (List.mem_cons_of_mem _ ho)) hrest

/-- In a knowledge base as above, a query containing a keyword of a listed topic is resolved
to the first topic with a keyword in the query. -/
theorem findTopic_of_keyword (lower : Str → Str) (data : List Topic)
    (hno : noLaterKeywordInTitle data = true)
    (hl : ∀ item ∈ data, lower item.title = toLowerCase item.title)
    (input : Str) (A : Topic) (hmem : A ∈ data) (hA : HasKeywordIn (lower input) A) :
    ∃ E, IsFirstWith (HasKeywordIn (lower input)) data E ∧ findTopic lower data input = some E := by
  have hfind := find?_matchesItem_eq_of_keyword lower (lower input) data hno hl ⟨A, hmem, hA⟩
  cases hf : data.find? (hasKeyword (lower input)) with
  | some E =>
    refine ⟨E, (find?_eq_some_iff_isFirstWith _ _ (hasKeyword_iff (lower input)) data E).1 hf, ?_⟩
    simp only [findTopic]
    rw [hfind, hf]
  | none =>
    rw [List.find?_eq_none] at hf
    exact absurd ((hasKeyword_iff _ _).2 hA) (hf A hmem)

theorem firstAidData_nodup : firstAidData.Nodup := by decide

theorem firstAidData_noLaterKeywordInTitle : noLaterKeywordInTitle firstAidData = true := by
  decide

theorem firstAidData_keywords_not_blank :
    (firstAidData.all fun item => item.keywords.all fun k => k.any fun c => !isWhiteSpace c) =
      true := by
  decide

theorem firstAidData_keywords_lowercase :
    (firstAidData.all fun item => item.keywords.all fun k => toLowerCase k == k) = true := by
  decide

theorem firstAidData_keywords_compile :
    (firstAidData.all fun item => item.keywords.all fun k => (compile k).isSome) = true := by
  decide

/-! ## Lemmas on the highlighter and the handlers -/

theorem highlightKeywords_nil (text : Str) : highlightKeywords text [] = some text := rfl

theorem highlightKeywords_cons (text k : Str) (ks : List Str) :
    highlightKeywords text (k :: ks) =
      (compile k).bind fun p => highlightKeywords (replaceAll p text) ks := by
  simp only [highlightKeywords, List.foldlM_cons]
  cases compile k <;> rfl

/-- With keywords of the modelled pattern fragment the highlighter returns a string. -/
theorem highlightKeywords_isSome (ks : List Str) (h : ∀ k ∈ ks, (compile k).isSome = true) :
    ∀ text, ∃ out, highlightKeywords text ks = some out := by
  induction ks with
  | nil => exact fun text => ⟨text, rfl⟩
  | cons k ks ih =>
    intro text
    obtain ⟨p, hp⟩ := Option.isSome_iff_exists.1 (h k (List.mem_cons_self _ _))
    obtain ⟨out, hout⟩ := ih (fun k' hk' => h k' (List.mem_cons_of_mem _ hk')) (replaceAll p text)
    exact ⟨out, by rw [highlightKeywords_cons, hp]; exact hout⟩

theorem mapM_option_forall₂ {α β : Type} (f : α → Option β) :
    ∀ l : List α, (∀ x ∈ l, ∃ y, f x = some y) →
      ∃ ys, l.mapM f = some ys ∧ List.Forall₂ (fun x y => f x = some y) l ys
  | [], _ => ⟨[], rfl, List.Forall₂.nil⟩
  | x :: l, h => by
    obtain ⟨y, hy⟩ := h x (List.mem_cons_self _ _)
    obtain ⟨ys, hys, hall⟩ := mapM_option_forall₂ f l fun x' hx' => h x' (List.mem_cons_of_mem _ hx')
    refine ⟨y :: ys, ?_, List.Forall₂.cons hy hall⟩
    rw [List.mapM_cons, hy, hys]
    rfl

theorem step_typing_of_ne_timeout (lower : Str → Str) (s₁ s₂ : State) (e : Event)
    (hstep : step lower s₁ e = some s₂) (he : e ≠ Event.timeout) (ht : s₁.typing = true) :
    s₂.typing = true := by
  cases e with
  | change value =>
    simp only [step, handleInputChange, Option.some.injEq] at hstep
    rw [← hstep]
    exact ht
  | send =>
    simp only [step, handleSend, Option.some.injEq] at hstep
    rw [← hstep]
    split
    · exact ht
    · rfl
  | timeout => exact absurd rfl he

theorem step_isSome_of_ne_timeout (lower : Str → Str) (s : State) (e : Event)
    (he : e ≠ Event.timeout) : ∃ s', step lower s e = some s' := by
  cases e with
  | change value => exact ⟨_, rfl⟩
  | send => exact ⟨_, rfl⟩
  | timeout => exact absurd rfl he

theorem run_typing_of_no_timeout (lower : Str → Str) :
    ∀ (es : List Event) (s : State), Event.timeout ∉ es → s.typing = true →
      ∃ s', run lower s es = some s' ∧ s'.typing = true
  | [], s, _, ht => ⟨s, rfl, ht⟩
  | e :: es, s, hes, ht => by
    have he : e ≠ Event.timeout := fun h => hes (h ▸ List.mem_cons_self _ _)
    obtain ⟨s₁, hs₁⟩ := step_isSome_of_ne_timeout lower s e he
    obtain ⟨s', hs', ht'⟩ := run_typing_of_no_timeout lower es s₁
      (fun h => hes (List.mem_cons_of_mem _ h)) (step_typing_of_ne_timeout lower s s₁ e hs₁ he ht)
    exact ⟨s', by simp [run, hs₁, hs'], ht'⟩

theorem timeoutCallback_typing (found : Option Topic) (s s' : State)
    (h : timeoutCallback found s = some s') : s'.typing = false ∧ s'.timers = s.timers := by
  cases found with
  | none =>
    simp only [timeoutCallback, Option.some.injEq] at h
    rw [← h]
    exact ⟨rfl, rfl⟩
  | some item =>
    simp only [timeoutCallback, Option.map_eq_some'] at h
    obtain ⟨texts, -, h⟩ := h
    rw [← h]
    exact ⟨rfl, rfl⟩

set_option maxRecDepth 100000 in
theorem run_choking_query :
    run toLowerCase State.init
        [Event.change (utf16 "I am choking and can't breathe"), Event.send, Event.timeout] =
      some {
        messages := [
          { type := utf16 "user", text := utf16 "I am choking and can't breathe" },
          { type := utf16 "bot", text := utf16
              "Ask 'Are you <b>choking</b>?' If they can cough or speak, encourage forceful coughing." },
          { type := utf16 "bot", text := utf16
              "If they <b>cannot breathe</b>, call emergency services immediately." },
          { type := utf16 "bot", text := utf16 "Give 5 back blows between the shoulder blades." },
          { type := utf16 "bot", text := utf16
              "If still <b>obstructed</b>, give up to 5 abdominal thrusts (Heimlich maneuver)." },
          { type := utf16 "bot", text := utf16
              "Alternate back blows and abdominal thrusts until object is dislodged or person becomes unconscious." }]
        input := []
        typing := false
        timers := [] } := by
  decide

/-! ## One keyword: the replacement loop against the wording of the specification -/

theorem compileAtom_literal (c : Nat) (h : c < 128 ∧ isSyntaxCharacter c = false) :
    compileAtom c = some (Atom.char c) := by
  obtain ⟨h₁, h₂⟩ := h
  have hdot : c ≠ 0x2E := by
    rintro rfl
    simp [isSyntaxCharacter] at h₂
  simp [compileAtom, hdot, h₂, Nat.not_le.2 h₁]

theorem compile_literal (k : Str) (h : ∀ c ∈ k, c < 128 ∧ isSyntaxCharacter c = false) :
    compile k = some (k.map Atom.char) := by
  induction k with
  | nil => rfl
  | cons c k ih =>
    have hc := compileAtom_literal c (h c (List.mem_cons_self _ _))
    have hk := ih fun c' hc' => h c' (List.mem_cons_of_mem _ hc')
    simp only [compile] at hk ⊢
    rw [List.mapM_cons, hc, hk]
    rfl

theorem EqIgnoreCase.length_eq {o k : Str} (h : EqIgnoreCase o k) : o.length = k.length := by
  have := congrArg List.length h
  simpa using this

theorem matchesAt_literal (k : Str) :
    ∀ s : Str, matchesAt (k.map Atom.char) s = true ↔ StartsWithIgnoreCase k s := by
  induction k with
  | nil =>
    intro s
    simp only [List.map_nil, matchesAt, true_iff]
    exact ⟨[], List.nil_prefix, rfl⟩
  | cons p k ih =>
    intro s
    cases s with
    | nil =>
      simp only [List.map_cons, matchesAt, Bool.false_eq_true, false_iff]
      rintro ⟨o, ho, heq⟩
      rw [List.prefix_nil] at ho
      subst ho
      simp [EqIgnoreCase] at heq
    | cons c s =>
      simp only [List.map_cons, matchesAt, Atom.matches, Bool.and_eq_true, beq_iff_eq, ih s]
      constructor
      · rintro ⟨hc, o, ho, heq⟩
        refine ⟨c :: o, (List.prefix_cons_inj c).2 ho, ?_⟩
        simp only [EqIgnoreCase, List.map_cons] at heq ⊢
        rw [hc, heq]
      · rintro ⟨o, ho, heq⟩
        cases o with
        | nil => simp [EqIgnoreCase] at heq
        | cons c' o =>
          rw [List.cons_prefix_cons] at ho
          simp only [EqIgnoreCase, List.map_cons, List.cons.injEq] at heq
          exact ⟨ho.1 ▸ heq.1, o, ho.2, heq.2⟩

theorem occursIgnoreCase_cons (k : Str) (c : Nat) (s : Str) :
    OccursIgnoreCase k (c :: s) ↔ StartsWithIgnoreCase k (c :: s) ∨ OccursIgnoreCase k s := by
  constructor
  · rintro ⟨o, ho, heq⟩
    rcases List.infix_cons_iff.1 ho with h | h
    · exact Or.inl ⟨o, h, heq⟩
    · exact Or.inr ⟨o, h, heq⟩
  · rintro (⟨o, ho, heq⟩ | ⟨o, ho, heq⟩)
    · exact ⟨o, List.infix_cons_iff.2 (Or.inl ho), heq⟩
    · exact ⟨o, List.infix_cons_iff.2 (Or.inr ho), heq⟩

theorem not_occursIgnoreCase_of_length_lt (k t : Str) (h : t.length < k.length) :
    ¬ OccursIgnoreCase k t := by
  rintro ⟨o, ho, heq⟩
  have h₁ := ho.length_le
  have h₂ := heq.length_eq
  omega

theorem WrapsOccurrences.cons {k : Str} {c : Nat} {s out : Str}
    (hstart : ¬ StartsWithIgnoreCase k (c :: s)) (h : WrapsOccurrences k s out) :
    WrapsOccurrences k (c :: s) (c :: out) := by
  cases h with
  | done t hno =>
    refine WrapsOccurrences.done _ fun hocc => ?_
    rcases (occursIgnoreCase_cons k c s).1 hocc with h | h
    · exact hstart h
    · exact hno h
  | wrap gap o rest out' heq hno hrest =>
    refine WrapsOccurrences.wrap (c :: gap) o rest out' heq (fun hocc => ?_) hrest
    have hocc' : OccursIgnoreCase k (c :: (gap ++ o.dropLast)) := hocc
    rcases (occursIgnoreCase_cons k c (gap ++ o.dropLast)).1 hocc' with ⟨o', ho', heq'⟩ | h
    · refine hstart ⟨o', ho'.trans ?_, heq'⟩
      rw [List.prefix_cons_inj, List.append_assoc, List.prefix_append_right_inj]
      exact (List.dropLast_prefix o).trans (List.prefix_append _ _)
    · exact hno h

theorem replaceLoop_succ (p : List Atom) (fuel : Nat) (s : Str) :
    replaceLoop p (fuel + 1) s =
      if matchesAt p s then
        tagOpen ++ s.take p.length ++ tagClose ++
          (if p.length = 0 then
            match s with
            | [] => []
            | c :: rest => c :: replaceLoop p fuel rest
          else replaceLoop p fuel (s.drop p.length))
      else
        match s with
        | [] => []
        | c :: rest => c :: replaceLoop p fuel rest := rfl

/-- The loop gives the same result for every amount of fuel above the length of the text:
the bound chosen in `replaceAll` never cuts the scan short. -/
theorem replaceLoop_fuel (p : List Atom) :
    ∀ (fuel₁ fuel₂ : Nat) (s : Str), s.length < fuel₁ → s.length < fuel₂ →
      replaceLoop p fuel₁ s = replaceLoop p fuel₂ s := by
  intro fuel₁
  induction fuel₁ with
  | zero => intro fuel₂ s h; omega
  | succ fuel₁ ih =>
    intro fuel₂ s h₁ h₂
    obtain ⟨fuel₂, rfl⟩ : ∃ n, fuel₂ = n + 1 := ⟨fuel₂ - 1, by omega⟩
    rw [replaceLoop_succ, replaceLoop_succ]
    cases s with
    | nil =>
      by_cases hp : p.length = 0
      · simp [hp]
      · have : matchesAt p [] = false := by
          cases p with
          | nil => simp at hp
          | cons a p => rfl
        simp [this]
    | cons c rest =>
      simp only [List.length_cons] at h₁ h₂
      have h₃ := ih fuel₂ rest (by omega) (by omega)
      by_cases hp : p.length = 0
      · simp only [hp, h₃, if_true]
      · have h₄ := ih fuel₂ ((c :: rest).drop p.length) (by simp; omega) (by simp; omega)
        simp only [hp, h₃, h₄]

/-- The empty keyword: the pattern `()` matches the empty string at every position, so an
empty emphasis is put before every code unit and at the end. -/
theorem replaceLoop_nil (fuel : Nat) :
    ∀ s : Str, s.length < fuel →
      replaceLoop [] fuel s = (s.flatMap fun c => tagOpen ++ tagClose ++ [c]) ++ (tagOpen ++ tagClose) := by
  induction fuel with
  | zero => intro s h; omega
  | succ fuel ih =>
    intro s h
    rw [replaceLoop_succ]
    cases s with
    | nil => simp [matchesAt]
    | cons c rest =>
      simp only [List.length_cons] at h
      simp [matchesAt, ih rest (by omega)]

/-- With enough fuel the replacement loop for a non-empty literal keyword wraps the
occurrences of the keyword as the specification words it. -/
theorem replaceLoop_wrapsOccurrences (k : Str) (hk : k ≠ []) :
    ∀ (fuel : Nat) (s : Str), s.length < fuel →
      WrapsOccurrences k s (replaceLoop (k.map Atom.char) fuel s) := by
  have hlen : 0 < k.length := List.length_pos.2 hk
  intro fuel
  induction fuel with
  | zero => intro s hs; omega
  | succ fuel ih =>
    intro s hs
    rw [replaceLoop_succ]
    by_cases hm : matchesAt (k.map Atom.char) s = true
    · obtain ⟨o, ⟨rest, hrest⟩, heq⟩ := (matchesAt_literal k s).1 hm
      have hol : o.length = k.length := heq.length_eq
      subst hrest
      have hne : ¬ (k.map Atom.char).length = 0 := by
        rw [List.length_map]
        omega
      rw [if_pos hm, if_neg hne, List.length_map, ← hol, List.take_left, List.drop_left]
      have hw := WrapsOccurrences.wrap [] o rest _ heq
        (not_occursIgnoreCase_of_length_lt k _ (by simp; omega))
        (ih rest (by simp at hs; omega))
      simpa using hw
    · rw [if_neg hm]
      cases s with
      | nil =>
        exact WrapsOccurrences.done _ (not_occursIgnoreCase_of_length_lt k _ (by simpa using hlen))
      | cons c rest =>
        exact WrapsOccurrences.cons (fun h => hm ((matchesAt_literal k _).2 h))
          (ih rest (by simp at hs; omega))

theorem wrapsOccurrences_iff (k t out : Str) :
    WrapsOccurrences k t out ↔
      (¬ OccursIgnoreCase k t ∧ out = t) ∨
      ∃ gap o rest out', t = gap ++ o ++ rest ∧ out = gap ++ tagOpen ++ o ++ tagClose ++ out' ∧
        EqIgnoreCase o k ∧ ¬ OccursIgnoreCase k (gap ++ o.dropLast) ∧
        WrapsOccurrences k rest out' := by
  constructor
  · intro h
    cases h with
    | done t hno => exact Or.inl ⟨hno, rfl⟩
    | wrap gap o rest out' heq hno hrest =>
      exact Or.inr ⟨gap, o, rest, out', rfl, rfl, heq, hno, hrest⟩
  · rintro (⟨hno, rfl⟩ | ⟨gap, o, rest, out', rfl, rfl, heq, hno, hrest⟩)
    · exact WrapsOccurrences.done _ hno
    · exact WrapsOccurrences.wrap gap o rest out' heq hno hrest

/-- An occurrence that starts before another one ends inside the text up to that one's last
character. -/
theorem occurs_of_shorter_gap (k gap o rest gap' o' rest' : Str) (hk : k ≠ [])
    (ht : gap ++ o ++ rest = gap' ++ o' ++ rest') (heq : EqIgnoreCase o k)
    (heq' : EqIgnoreCase o' k) (hlt : gap.length < gap'.length) :
    OccursIgnoreCase k (gap' ++ o'.dropLast) := by
  have hlen : 0 < k.length := List.length_pos.2 hk
  have h₁ : gap ++ o <+: gap ++ o ++ rest := List.prefix_append _ _
  have h₂ : gap' ++ o'.dropLast <+: gap ++ o ++ rest := by
    rw [ht, List.append_assoc, List.prefix_append_right_inj]
    exact (List.dropLast_prefix o').trans (List.prefix_append _ _)
  have hle : (gap ++ o).length ≤ (gap' ++ o'.dropLast).length := by
    have := heq.length_eq
    have := heq'.length_eq
    simp only [List.length_append, List.length_dropLast]
    omega
  have hpre := List.prefix_of_prefix_length_le h₁ h₂ hle
  exact ⟨o, (List.suffix_append gap o).isInfix.trans hpre.isInfix, heq⟩

/-- The specification's wording determines the highlighted text. -/
theorem WrapsOccurrences.unique {k : Str} (hk : k ≠ []) {t out₁ : Str}
    (h₁ : WrapsOccurrences k t out₁) : ∀ out₂, WrapsOccurrences k t out₂ → out₁ = out₂ := by
  induction h₁ with
  | done t hno =>
    intro out₂ h₂
    rcases (wrapsOccurrences_iff k t out₂).1 h₂ with ⟨-, rfl⟩ | ⟨gap, o, rest, out', rfl, -, heq, -, -⟩
    · rfl
    · exact absurd ⟨o, List.infix_append _ _ _, heq⟩ hno
  | wrap gap o rest out heq hno _ ih =>
    intro out₂ h₂
    rcases (wrapsOccurrences_iff k _ out₂).1 h₂ with
      ⟨hno', -⟩ | ⟨gap', o', rest', out', ht, rfl, heq', hno', hrest'⟩
    · exact absurd ⟨o, List.infix_append _ _ _, heq⟩ hno'
    · have hgap : gap.length = gap'.length := by
        rcases Nat.lt_trichotomy gap.length gap'.length with h | h | h
        · exact absurd (occurs_of_shorter_gap k gap o rest gap' o' rest' hk ht heq heq' h) hno'
        · exact h
        · exact absurd (occurs_of_shorter_gap k gap' o' rest' gap o rest hk ht.symm heq' heq h) hno
      rw [List.append_assoc, List.append_assoc] at ht
      obtain ⟨hg, ht'⟩ := List.append_inj ht hgap
      obtain ⟨ho, hr⟩ := List.append_inj ht' (heq.length_eq.trans heq'.length_eq.symm)
      subst hg ho hr
      rw [ih out' hrest']

/-- The highlighter for one non-empty literal keyword. -/
theorem highlightKeywords_single_literal (text k : Str) (hk : k ≠ [])
    (hlit : ∀ c ∈ k, c < 128 ∧ isSyntaxCharacter c = false) :
    ∃ out, highlightKeywords text [k] = some out ∧ WrapsOccurrences k text out := by
  refine ⟨replaceAll (k.map Atom.char) text, ?_, ?_⟩
  · rw [highlightKeywords_cons, compile_literal k hlit]
    rfl
  · exact replaceLoop_wrapsOccurrences k hk _ text (Nat.lt_succ_self _)

/-! ## Lemmas on transitions -/

theorem trim_isEmpty_eq_false (q : Str) (h : ∃ c ∈ q, isWhiteSpace c = false) :
    (trim q).isEmpty = false := by
  obtain ⟨c, hc, hcw⟩ := h
  have h₁ : q.dropWhile isWhiteSpace ≠ [] := fun hnil =>
    absurd (List.dropWhile_eq_nil_iff.1 hnil c hc) (by simp [hcw])
  obtain ⟨d, r, hr⟩ := List.exists_cons_of_ne_nil h₁
  have hd : isWhiteSpace d = false := by
    have := List.head_dropWhile_not isWhiteSpace q h₁
    simpa [hr] using this
  have h₂ : (q.dropWhile isWhiteSpace).reverse.dropWhile isWhiteSpace ≠ [] := fun hnil =>
    absurd (List.dropWhile_eq_nil_iff.1 hnil d (by simp [hr])) (by simp [hd])
  cases ht : trim q with
  | nil =>
    simp only [trim, List.reverse_eq_nil_iff] at ht
    exact absurd ht h₂
  | cons a l => rfl

theorem isFirstWith_congr (P Q : Topic → Prop) (data : List Topic) (item : Topic)
    (h : ∀ it ∈ data, P it ↔ Q it) : IsFirstWith P data item ↔ IsFirstWith Q data item := by
  constructor
  · rintro ⟨before, after, hd, hP, hb⟩
    refine ⟨before, after, hd, (h item (by simp [hd])).1 hP, fun other ho hQ => ?_⟩
    exact hb other ho ((h other (by simp [hd, ho])).2 hQ)
  · rintro ⟨before, after, hd, hQ, hb⟩
    refine ⟨before, after, hd, (h item (by simp [hd])).2 hQ, fun other ho hP => ?_⟩
    exact hb other ho ((h other (by simp [hd, ho])).1 hP)

/-- What a transition does to the messages: it appends, a submit only messages of type
`user`, a completion only messages of type `bot`, a change of the text area nothing. -/
theorem step_messages (lower : Str → Str) (s s' : State) (e : Event)
    (h : step lower s e = some s') :
    ∃ added, s'.messages = s.messages ++ added ∧
      (e = Event.send → ∀ m ∈ added, m.type = utf16 "user") ∧
      (e = Event.timeout → ∀ m ∈ added, m.type = utf16 "bot") ∧
      (∀ value, e = Event.change value → added = []) := by
  cases e with
  | change value =>
    simp only [step, handleInputChange, Option.some.injEq] at h
    subst h
    exact ⟨[], by simp, by simp, by simp, by simp⟩
  | send =>
    simp only [step, handleSend, Option.some.injEq] at h
    subst h
    split
    · exact ⟨[], by simp, by simp, by simp, by simp⟩
    · exact ⟨[{ type := utf16 "user", text := s.input }], rfl, by simp, by simp, by simp⟩
  | timeout =>
    simp only [step] at h
    cases htm : s.timers with
    | nil => simp [htm] at h
    | cons found rest =>
      simp only [htm] at h
      cases found with
      | none =>
        simp only [timeoutCallback, Option.some.injEq] at h
        subst h
        exact ⟨[{ type := utf16 "bot", text := fallbackText }], rfl, by simp, by simp, by simp⟩
      | some item =>
        simp only [timeoutCallback, Option.map_eq_some'] at h
        obtain ⟨texts, -, h⟩ := h
        subst h
        refine ⟨texts.map fun text => { type := utf16 "bot", text := text }, rfl, by simp, ?_,
          by simp⟩
        intro _ m hm
        obtain ⟨text, -, rfl⟩ := List.mem_map.1 hm
        rfl

theorem run_messages_extend (lower : Str → Str) :
    ∀ (es : List Event) (s s' : State), run lower s es = some s' → s.messages <+: s'.messages
  | [], s, s', h => by
    simp only [run, Option.some.injEq] at h
    subst h
    exact List.prefix_rfl
  | e :: es, s, s', h => by
    simp only [run, Option.bind_eq_some] at h
    obtain ⟨s₁, hs₁, hrun⟩ := h
    obtain ⟨added, hadd, -⟩ := step_messages lower s s₁ e hs₁
    exact (hadd ▸ List.prefix_append _ _).trans (run_messages_extend lower es s₁ s' hrun)

theorem run_message_types (lower : Str → Str) :
    ∀ (es : List Event) (s s' : State), run lower s es = some s' →
      (∀ m ∈ s.messages, m.type = utf16 "user" ∨ m.type = utf16 "bot") →
      ∀ m ∈ s'.messages, m.type = utf16 "user" ∨ m.type = utf16 "bot"
  | [], s, s', h, hs => by
    simp only [run, Option.some.injEq] at h
    subst h
    exact hs
  | e :: es, s, s', h, hs => by
    simp only [run, Option.bind_eq_some] at h
    obtain ⟨s₁, hs₁, hrun⟩ := h
    obtain ⟨added, hadd, hsend, htime, hchange⟩ := step_messages lower s s₁ e hs₁
    refine run_message_types lower es s₁ s' hrun fun m hm => ?_
    rw [hadd] at hm
    rcases List.mem_append.1 hm with hm | hm
    · exact hs m hm
    · cases e with
      | change value => simp [hchange value rfl] at hm
      | send => exact Or.inl (hsend rfl m hm)
      | timeout => exact Or.inr (htime rfl m hm)

/-- The queue of pending completions over a run: the completions that ran have left it at
the front, the new ones were put at the end. -/
theorem run_timers (lower : Str → Str) :
    ∀ (es : List Event) (s s' : State), run lower s es = some s' →
      es.count Event.timeout ≤ s.timers.length →
      ∃ added, s'.timers = s.timers.drop (es.count Event.timeout) ++ added
  | [], s, s', h, _ => by
    simp only [run, Option.some.injEq] at h
    subst h
    exact ⟨[], by simp⟩
  | e :: es, s, s', h, hc => by
    simp only [run, Option.bind_eq_some] at h
    obtain ⟨s₁, hs₁, hrun⟩ := h
    cases e with
    | change value =>
      simp only [step, handleInputChange, Option.some.injEq] at hs₁
      subst hs₁
      rw [List.count_cons_of_ne (by simp)] at hc ⊢
      exact run_timers lower es { s with input := value } s' hrun hc
    | send =>
      rw [List.count_cons_of_ne (by simp)] at hc ⊢
      simp only [step, handleSend, Option.some.injEq] at hs₁
      subst hs₁
      split at hrun
      · exact run_timers lower es _ s' hrun hc
      · obtain ⟨added, hadd⟩ := run_timers lower es _ s' hrun
          (by simp only [List.length_append]; omega)
        simp only at hadd
        rw [List.drop_append_of_le_length hc, List.append_assoc] at hadd
        exact ⟨_, hadd⟩
    | timeout =>
      rw [List.count_cons_self] at hc ⊢
      simp only [step] at hs₁
      cases htm : s.timers with
      | nil => simp [htm] at hs₁
      | cons found rest =>
        simp only [htm] at hs₁
        have ht := (timeoutCallback_typing found _ s₁ hs₁).2
        simp only at ht
        rw [htm, List.length_cons] at hc
        obtain ⟨added, hadd⟩ := run_timers lower es s₁ s' hrun (by rw [ht]; omega)
        rw [ht] at hadd
        exact ⟨added, by rw [List.drop_succ_cons]; exact hadd⟩

/-- A completion that holds "no match" or a topic of the knowledge base can always run. -/
theorem timeoutCallback_isSome (found : Option Topic)
    (hfound : ∀ item, found = some item → item ∈ firstAidData) (s : State) :
    ∃ s', timeoutCallback found s = some s' := by
  cases found with
  | none => exact ⟨_, rfl⟩
  | some item =>
    have hc := firstAidData_keywords_compile
    simp only [List.all_eq_true] at hc
    obtain ⟨texts, hmap, -⟩ := mapM_option_forall₂ (fun step => highlightKeywords step item.keywords)
      item.steps (fun step _ => highlightKeywords_isSome item.keywords (hc item (hfound item rfl)) step)
    simp only [timeoutCallback, hmap, Option.map_some']
    exact ⟨_, rfl⟩

/-! ## Lemmas on highlighted steps and on what the markup cannot create -/

set_option maxRecDepth 1000000 in
theorem bleeding_steps_clean : bleeding.steps.all (stepHighlightClean bleeding) = true := by
  decide

set_option maxRecDepth 1000000 in
theorem choking_steps_clean : choking.steps.all (stepHighlightClean choking) = true := by
  decide

set_option maxRecDepth 1000000 in
theorem burn_steps_clean : burn.steps.all (stepHighlightClean burn) = true := by
  decide

set_option maxRecDepth 1000000 in
theorem cpr_steps_clean : cpr.steps.all (stepHighlightClean cpr) = true := by
  decide

theorem tagOpen_eq : tagOpen = [0x3C, 0x62, 0x3E] := by decide

theorem tagClose_eq : tagClose = [0x3C, 0x2F, 0x62, 0x3E] := by decide

/-- A block that occurs in `u ++ c :: v` and does not hold `c` occurs in `u` or in `v`. -/
theorem infix_of_infix_append_cons {o u v : Str} {c : Nat} (h : o <:+: u ++ c :: v)
    (hc : c ∉ o) : o <:+: u ∨ o <:+: v := by
  obtain ⟨s, t, hst⟩ := h
  rcases List.append_eq_append_iff.1 hst with ⟨a, hu, -⟩ | ⟨b, hso, hcv⟩
  · exact Or.inl ⟨s, a, hu.symm⟩
  · cases b with
    | nil =>
      rw [List.append_nil] at hso
      exact Or.inl ⟨s, [], by rw [List.append_nil, hso]⟩
    | cons b₀ b =>
      simp only [List.cons_append, List.cons.injEq] at hcv
      obtain ⟨rfl, hv⟩ := hcv
      rcases List.append_eq_append_iff.1 hso with ⟨a, -, ho⟩ | ⟨d, -, hd⟩
      · exact absurd (by rw [ho]; simp) hc
      · cases d with
        | nil =>
          rw [List.nil_append] at hd
          exact absurd (by rw [← hd]; simp) hc
        | cons d₀ d =>
          simp only [List.cons_append, List.cons.injEq] at hd
          exact Or.inr ⟨d, t, by rw [hv, hd.2]⟩

/-- Whether the code unit `c` is spelled out by no string that is `X` up to case. -/
theorem not_mem_of_eqIgnoreCase {o X : Str} {c : Nat} (hcanon : canonicalize c = c)
    (hX : c ∉ X.map canonicalize) (h : EqIgnoreCase o X) : c ∉ o := by
  intro hc
  apply hX
  rw [← h, ← hcanon]
  exact List.mem_map_of_mem _ hc

theorem OccursIgnoreCase.mono {X a b : Str} (h : OccursIgnoreCase X a) (hab : a <:+: b) :
    OccursIgnoreCase X b := by
  obtain ⟨o, ho, heq⟩ := h
  exact ⟨o, ho.trans hab, heq⟩

theorem occurs_split {X u v : Str} {c : Nat} (hcanon : canonicalize c = c)
    (hc : c ∉ X.map canonicalize) (h : OccursIgnoreCase X (u ++ c :: v)) :
    OccursIgnoreCase X u ∨ OccursIgnoreCase X v := by
  obtain ⟨o, ho, heq⟩ := h
  rcases infix_of_infix_append_cons ho (not_mem_of_eqIgnoreCase hcanon hc heq) with h | h
  · exact Or.inl ⟨o, h, heq⟩
  · exact Or.inr ⟨o, h, heq⟩

/-- Putting `<`, a short middle part and `>` into a text creates no occurrence of a plain
word. -/
theorem occurs_of_occurs_insert {X u v mid : Str} (hX : PlainWord X)
    (hmid : mid.length < X.length)
    (h : OccursIgnoreCase X (u ++ 0x3C :: (mid ++ 0x3E :: v))) : OccursIgnoreCase X (u ++ v) := by
  rcases occurs_split (by decide) hX.2.1 h with h | h
  · exact h.mono (List.prefix_append u v).isInfix
  · rcases occurs_split (by decide) hX.2.2 h with h | h
    · exact absurd h (not_occursIgnoreCase_of_length_lt X mid hmid)
    · exact h.mono (List.suffix_append u v).isInfix

/-- Wrapping a part `w` of a text in the tags creates no occurrence of a plain word. -/
theorem not_occurs_wrap {X u w v : Str} (hX : PlainWord X)
    (h : ¬ OccursIgnoreCase X (u ++ w ++ v)) :
    ¬ OccursIgnoreCase X (u ++ tagOpen ++ w ++ tagClose ++ v) := by
  intro hocc
  apply h
  have h₁ : OccursIgnoreCase X ((u ++ tagOpen ++ w) ++ 0x3C :: ([0x2F, 0x62] ++ 0x3E :: v)) := by
    rw [tagClose_eq] at hocc
    simpa using hocc
  have h₂ := occurs_of_occurs_insert hX (by have := hX.1; simp; omega) h₁
  have h₃ : OccursIgnoreCase X (u ++ 0x3C :: ([0x62] ++ 0x3E :: (w ++ v))) := by
    rw [tagOpen_eq] at h₂
    simpa using h₂
  have h₄ := occurs_of_occurs_insert hX (by have := hX.1; simp; omega) h₃
  simpa using h₄

/-- Highlighting any keyword creates no occurrence of a plain word. -/
theorem not_occurs_replaceLoop {X : Str} (hX : PlainWord X) (p : List Atom) :
    ∀ (fuel : Nat) (s acc : Str), ¬ OccursIgnoreCase X (acc ++ s) →
      ¬ OccursIgnoreCase X (acc ++ replaceLoop p fuel s) := by
  intro fuel
  induction fuel with
  | zero => exact fun s acc h => h
  | succ fuel ih =>
    intro s acc h
    rw [replaceLoop_succ]
    by_cases hm : matchesAt p s = true
    · rw [if_pos hm]
      by_cases hp : p.length = 0
      · rw [if_pos hp, hp, List.take_zero]
        cases s with
        | nil =>
          have := not_occurs_wrap (u := acc) (w := []) (v := []) hX (by simpa using h)
          simpa using this
        | cons c rest =>
          have h₁ := not_occurs_wrap (u := acc) (w := []) (v := c :: rest) hX (by simpa using h)
          have h₂ := ih rest (acc ++ tagOpen ++ tagClose ++ [c]) (by simpa using h₁)
          simpa using h₂
      · rw [if_neg hp]
        have h₁ := not_occurs_wrap (u := acc) (w := s.take p.length) (v := s.drop p.length) hX
          (by rw [List.append_assoc, List.take_append_drop]; exact h)
        have h₂ := ih (s.drop p.length) (acc ++ tagOpen ++ s.take p.length ++ tagClose) h₁
        simpa using h₂
    · rw [if_neg hm]
      cases s with
      | nil => simpa using h
      | cons c rest =>
        have h₂ := ih rest (acc ++ [c]) (by simpa using h)
        simpa using h₂

/-- A block without `<` at the start of the highlighted text is at the start of the text. -/
theorem prefix_of_prefix_replaceLoop (p : List Atom) :
    ∀ (fuel : Nat) (s o : Str), 0x3C ∉ o → o <+: replaceLoop p fuel s → o <+: s := by
  intro fuel
  induction fuel with
  | zero => exact fun s o _ h => h
  | succ fuel ih =>
    intro s o ho h
    cases o with
    | nil => exact List.nil_prefix
    | cons a o =>
      rw [replaceLoop_succ] at h
      by_cases hm : matchesAt p s = true
      · rw [if_pos hm, tagOpen_eq] at h
        simp only [List.cons_append, List.cons_prefix_cons] at h
        exact absurd (by simp [h.1]) ho
      · rw [if_neg hm] at h
        cases s with
        | nil => simp at h
        | cons c rest =>
          simp only [List.cons_prefix_cons] at h ⊢
          exact ⟨h.1, ih rest o (fun hmem => ho (List.mem_cons_of_mem _ hmem)) h.2⟩

/-- After the highlighting of a literal keyword `K`, no plain word that starts with `K` and
goes on is left: every occurrence of `K` is followed by the closing tag. -/
theorem not_occurs_replaceLoop_literal (K X : Str) (hK : K ≠ []) (hX : PlainWord X)
    (hlen : K.length < X.length)
    (hpre : ∀ o, EqIgnoreCase o X → StartsWithIgnoreCase K o) :
    ∀ (fuel : Nat) (s : Str), s.length < fuel →
      ¬ OccursIgnoreCase X (replaceLoop (K.map Atom.char) fuel s) := by
  have hKlen : 0 < K.length := List.length_pos.2 hK
  intro fuel
  induction fuel with
  | zero => intro s hs; omega
  | succ fuel ih =>
    intro s hs
    rw [replaceLoop_succ]
    by_cases hm : matchesAt (K.map Atom.char) s = true
    · obtain ⟨o, ⟨rest, hrest⟩, heq⟩ := (matchesAt_literal K s).1 hm
      have hol : o.length = K.length := heq.length_eq
      subst hrest
      have hne : ¬ (K.map Atom.char).length = 0 := by
        rw [List.length_map]
        omega
      rw [if_pos hm, if_neg hne, List.length_map, ← hol, List.take_left, List.drop_left]
      have hrec := ih rest (by simp at hs; omega)
      intro hocc
      have h₁ : OccursIgnoreCase X ([] ++ 0x3C :: ([0x62] ++ 0x3E ::
          (o ++ 0x3C :: ([0x2F, 0x62] ++ 0x3E :: replaceLoop (K.map Atom.char) fuel rest)))) := by
        rw [tagOpen_eq, tagClose_eq] at hocc
        simpa using hocc
      have hX1 := hX.1
      rcases occurs_split (by decide) hX.2.1 h₁ with h | h
      · exact not_occursIgnoreCase_of_length_lt X [] (by simp; omega) h
      · rcases occurs_split (by decide) hX.2.2 h with h | h
        · exact not_occursIgnoreCase_of_length_lt X _ (by simp; omega) h
        · rcases occurs_split (by decide) hX.2.1 h with h | h
          · exact not_occursIgnoreCase_of_length_lt X o (by omega) h
          · rcases occurs_split (by decide) hX.2.2 h with h | h
            · exact not_occursIgnoreCase_of_length_lt X _ (by simp; omega) h
            · exact hrec h
    · rw [if_neg hm]
      cases s with
      | nil => exact not_occursIgnoreCase_of_length_lt X [] (by simp; omega)
      | cons c rest =>
        intro hocc
        rcases (occursIgnoreCase_cons X c _).1 hocc with ⟨o, ho, heq⟩ | h
        · have hback : o <+: replaceLoop (K.map Atom.char) (fuel + 1) (c :: rest) := by
            rw [replaceLoop_succ, if_neg hm]
            exact ho
          have hos := prefix_of_prefix_replaceLoop _ _ _ o
            (not_mem_of_eqIgnoreCase (by decide) hX.2.1 heq) hback
          obtain ⟨o', ho', heq'⟩ := hpre o heq
          exact hm ((matchesAt_literal K _).2 ⟨o', ho'.trans hos, heq'⟩)
        · exact ih rest (by simp at hs; omega) h

theorem startsWith_of_eqIgnoreCase_append (K sfx o : Str) (h : EqIgnoreCase o (K ++ sfx)) :
    StartsWithIgnoreCase K o := by
  refine ⟨o.take K.length, List.take_prefix _ _, ?_⟩
  simp only [EqIgnoreCase, List.map_append] at h ⊢
  rw [List.map_take, h, List.take_left' (by simp)]

/-- A text in which a part of a word does not occur does not hold the word. -/
theorem occurs_of_occurs_append (a X b t : Str) (h : OccursIgnoreCase (a ++ X ++ b) t) :
    OccursIgnoreCase X t := by
  obtain ⟨o, ho, heq⟩ := h
  refine ⟨(o.drop a.length).take X.length,
    ((List.take_prefix _ _).isInfix.trans (List.drop_suffix _ _).isInfix).trans ho, ?_⟩
  simp only [EqIgnoreCase, List.map_append] at heq ⊢
  rw [List.map_take, List.map_drop, heq, List.append_assoc, List.drop_left' (by simp),
    List.take_left' (by simp)]

/-- Highlighting a list of keywords creates no occurrence of a plain word. -/
theorem not_occurs_highlightKeywords {X : Str} (hX : PlainWord X) :
    ∀ (ks : List Str) (t out : Str), highlightKeywords t ks = some out →
      ¬ OccursIgnoreCase X t → ¬ OccursIgnoreCase X out
  | [], t, out, h, ht => by
    rw [highlightKeywords_nil, Option.some.injEq] at h
    exact h ▸ ht
  | k :: ks, t, out, h, ht => by
    rw [highlightKeywords_cons, Option.bind_eq_some] at h
    obtain ⟨p, -, hp⟩ := h
    refine not_occurs_highlightKeywords hX ks _ out hp ?_
    have := not_occurs_replaceLoop hX p (t.length + 1) t [] (by simpa using ht)
    simpa [replaceAll] using this

set_option maxRecDepth 1000000 in
theorem highlight_first_bleeding_step :
    highlightKeywords
        (utf16 "Call emergency services immediately if bleeding is severe or spurting.")
        bleeding.keywords =
      some (utf16
        "Call emergency services immediately if <b>bleed</b>ing is severe or spurting.") := by
  decide

/-- After the keywords of the bleeding topic, neither `bleed` followed by `i` nor `bleed`
followed by `s` is left in any text. -/
theorem not_occurs_after_bleeding_keywords (text out sfx : Str)
    (hX : PlainWord (utf16 "bleed" ++ sfx)) (hsfx : sfx ≠ [])
    (h : highlightKeywords text bleeding.keywords = some out) :
    ¬ OccursIgnoreCase (utf16 "bleed" ++ sfx) out := by
  have hkw : bleeding.keywords = utf16 "bleed" :: bleeding.keywords.tail := by decide
  have hc : compile (utf16 "bleed") = some ((utf16 "bleed").map Atom.char) :=
    compile_literal _ (by decide)
  rw [hkw, highlightKeywords_cons, hc, Option.some_bind] at h
  refine not_occurs_highlightKeywords hX _ _ out h ?_
  exact not_occurs_replaceLoop_literal (utf16 "bleed") _ (by decide) hX
    (by
      have := List.length_pos.2 hsfx
      simp only [List.length_append]
      omega)
    (fun o ho => startsWith_of_eqIgnoreCase_append _ sfx o ho) _ text (Nat.lt_succ_self _)

/-! ## The claims -/

/-- C1 (counterexample): for the query `adult` no keyword of any topic occurs in the query
and no lowercased title occurs in it, so the claim predicts "no match"; the code returns the
choking topic, whose title contains the query. -/
theorem C1_counterexample :
    findTopic toLowerCase firstAidData (utf16 "adult") = some choking ∧
      ∀ item ∈ firstAidData, ¬ SpecMatches toLowerCase (toLowerCase (utf16 "adult")) item := by
  refine ⟨by decide, ?_⟩
  intro item hitem
  have hspec : ∀ it : Topic,
      (hasKeyword (toLowerCase (utf16 "adult")) it ||
        includes (toLowerCase (utf16 "adult")) (toLowerCase it.title)) = false →
      ¬ SpecMatches toLowerCase (toLowerCase (utf16 "adult")) it := by
    intro it hf hs
    simp only [Bool.or_eq_false_iff] at hf
    rcases hs with hs | hs
    · rw [(hasKeyword_iff _ _).2 hs] at hf
      simp at hf
    · rw [(includes_iff _ _).2 hs] at hf
      simp at hf
  simp only [firstAidData, List.mem_cons, List.mem_singleton, List.not_mem_nil, or_false] at hitem
  rcases hitem with rfl | rfl | rfl | rfl <;> exact hspec _ (by decide)

/-- C1 (amended): for every lowercasing function, knowledge base and query, the matcher
returns the first topic in list order for which a keyword occurs in the lowercased query or
the lowercased query occurs in the lowercased title, and it returns "no match" exactly when
no topic satisfies that condition. -/
theorem C1_matcher_first_title_contains (lower : Str → Str) (data : List Topic) (input : Str) :
    (∀ item, findTopic lower data input = some item ↔
        IsFirstWith (TitleContainsMatches lower (lower input)) data item) ∧
      (findTopic lower data input = none ↔
        ∀ item ∈ data, ¬ TitleContainsMatches lower (lower input) item) := by
  constructor
  · intro item
    exact find?_eq_some_iff_isFirstWith _ _ (matchesItem_iff lower (lower input)) data item
  · simp only [findTopic, List.find?_eq_none, matchesItem_iff]

/-- C2: first topic wins. When the lowercased query contains a keyword of a topic `A` and a
keyword of a topic `B` listed after `A` in the knowledge base, the matcher returns the first
topic in knowledge-base order with a keyword in the lowercased query, and that topic is not
`B`. The lowercasing function is any function that lowercases the four titles as Basic Latin
lowercasing does. -/
theorem C2_first_topic_wins (lower : Str → Str)
    (hl : ∀ item ∈ firstAidData, lower item.title = toLowerCase item.title)
    (input : Str) (A B : Topic) (pre mid post : List Topic)
    (hkb : firstAidData = pre ++ A :: (mid ++ B :: post))
    (hA : HasKeywordIn (lower input) A) (hB : HasKeywordIn (lower input) B) :
    ∃ E, IsFirstWith (HasKeywordIn (lower input)) firstAidData E ∧
      findTopic lower firstAidData input = some E ∧ E ≠ B := by
  have hAmem : A ∈ firstAidData := by rw [hkb]; simp
  obtain ⟨E, hfirst, hfind⟩ :=
    findTopic_of_keyword lower firstAidData firstAidData_noLaterKeywordInTitle hl input A hAmem hA
  refine ⟨E, hfirst, hfind, ?_⟩
  rintro rfl
  obtain ⟨before, after, hd, -, hnone⟩ := hfirst
  have hnd1 : ((pre ++ A :: mid) ++ E :: post).Nodup := by
    have := firstAidData_nodup
    rw [hkb] at this
    simpa using this
  have hnd2 : (before ++ E :: after).Nodup := hd ▸ firstAidData_nodup
  have hE1 : E ∉ pre ++ A :: mid := fun h =>
    (List.nodup_append.1 hnd1).2.2 h (List.mem_cons_self _ _)
  have hE2 : E ∉ before := fun h =>
    (List.nodup_append.1 hnd2).2.2 h (List.mem_cons_self _ _)
  have hsplit : (pre ++ A :: mid) ++ E :: post = before ++ E :: after := by
    rw [← hd, hkb]
    simp
  have hbefore := append_cons_left_unique E _ _ _ _ hE1 hE2 hsplit
  exact hnone A (hbefore ▸ by simp) hA

/-- C2 (witness): the query `A hot CUT` contains the keyword `cut` of the bleeding topic and
the keyword `hot` of the burn topic. -/
theorem C2_first_topic_wins_witness :
    ∃ E, IsFirstWith (HasKeywordIn (toLowerCase (utf16 "A hot CUT"))) firstAidData E ∧
      findTopic toLowerCase firstAidData (utf16 "A hot CUT") = some E ∧ E ≠ burn :=
  C2_first_topic_wins toLowerCase (fun _ _ => rfl) (utf16 "A hot CUT") bleeding burn []
    [choking] [cpr] rfl ((hasKeyword_iff _ _).1 (by decide)) ((hasKeyword_iff _ _).1 (by decide))

/-- C3 (counterexample): for the empty query, and for the query made of one space, the
matcher returns the bleeding topic, not "no match": both occur in the title
`severe bleeding`. -/
theorem C3_counterexample :
    findTopic toLowerCase firstAidData (utf16 "") = some bleeding ∧
      findTopic toLowerCase firstAidData (utf16 " ") = some bleeding := by
  decide

/-- C3 (amended): a query made of white space only, which lowercasing leaves as it is and
which occurs in no lowercased title of the knowledge base, is resolved to "no match". -/
theorem C3_whitespace_outside_titles_no_match (lower : Str → Str) (q : Str)
    (hws : ∀ c ∈ q, isWhiteSpace c = true) (hlow : lower q = q)
    (hnt : ∀ item ∈ firstAidData, ¬ q <:+: lower item.title) :
    findTopic lower firstAidData q = none := by
  simp only [findTopic, List.find?_eq_none, hlow]
  intro item hitem hm
  rcases (matchesItem_iff lower q item).1 hm with ⟨k, hk, hkq⟩ | ht
  · have hkb := firstAidData_keywords_not_blank
    simp only [List.all_eq_true, List.any_eq_true] at hkb
    obtain ⟨c, hc, hcw⟩ := hkb item hitem k hk
    rw [hws c (hkq.subset hc)] at hcw
    simp at hcw
  · exact hnt item hitem ht

/-- C3 (witness): the query made of three spaces. -/
theorem C3_whitespace_outside_titles_no_match_witness :
    findTopic toLowerCase firstAidData (utf16 "   ") = none :=
  C3_whitespace_outside_titles_no_match toLowerCase (utf16 "   ") (by decide) (by decide)
    (by
      have h : (firstAidData.all fun item =>
          !includes (toLowerCase item.title) (utf16 "   ")) = true := by decide
      simp only [List.all_eq_true] at h
      intro item hitem hc
      have := h item hitem
      rw [(includes_iff _ _).2 hc] at this
      simp at this)

/-- C4: when the matcher resolves the query to the topic `T`, a submit that passes the guard
schedules a completion holding `T`, and that completion, whenever it runs, appends exactly
one reply per step of `T`, in step order, with text `highlightKeywords step T.keywords`, and
nothing else. In particular the query `I am choking and can't breathe` is resolved to the
choking topic and its completion appends the five choking steps. -/
theorem C4_matched_completion_appends_steps (lower : Str → Str) (q : Str) (T : Topic)
    (h : findTopic lower firstAidData q = some T) :
    (∃ replies : List Message,
      List.Forall₂ (fun step m => m.type = utf16 "bot" ∧
        highlightKeywords step T.keywords = some m.text) T.steps replies ∧
      (∀ s : State, s.input = q → (trim q).isEmpty = false →
        (handleSend lower s).timers = s.timers ++ [some T]) ∧
      ∀ (s : State) (rest : List (Option Topic)), s.timers = some T :: rest →
        step lower s Event.timeout =
          some { s with messages := s.messages ++ replies, typing := false, timers := rest }) ∧
    findTopic toLowerCase firstAidData (utf16 "I am choking and can't breathe") = some choking ∧
    run toLowerCase State.init
        [Event.change (utf16 "I am choking and can't breathe"), Event.send, Event.timeout] =
      some {
        messages := [
          { type := utf16 "user", text := utf16 "I am choking and can't breathe" },
          { type := utf16 "bot", text := utf16
              "Ask 'Are you <b>choking</b>?' If they can cough or speak, encourage forceful coughing." },
          { type := utf16 "bot", text := utf16
              "If they <b>cannot breathe</b>, call emergency services immediately." },
          { type := utf16 "bot", text := utf16 "Give 5 back blows between the shoulder blades." },
          { type := utf16 "bot", text := utf16
              "If still <b>obstructed</b>, give up to 5 abdominal thrusts (Heimlich maneuver)." },
          { type := utf16 "bot", text := utf16
              "Alternate back blows and abdominal thrusts until object is dislodged or person becomes unconscious." }]
        input := []
        typing := false
        timers := [] } := by
  refine ⟨?_, by decide, run_choking_query⟩
  have hT : T ∈ firstAidData := List.mem_of_find?_eq_some h
  have hc := firstAidData_keywords_compile
  simp only [List.all_eq_true] at hc
  obtain ⟨texts, hmap, hall⟩ := mapM_option_forall₂ (fun step => highlightKeywords step T.keywords)
    T.steps (fun step _ => highlightKeywords_isSome T.keywords (hc T hT) step)
  refine ⟨texts.map fun text => { type := utf16 "bot", text := text }, ?_, ?_, ?_⟩
  · rw [List.forall₂_map_right_iff]
    exact hall.imp fun _ _ hab => ⟨rfl, hab⟩
  · intro s hs hq
    simp [handleSend, hs, hq, h]
  · intro s rest hs
    simp only [step, hs, timeoutCallback, hmap, Option.map_some']

/-- C4 (witness): the query `choke`. -/
theorem C4_matched_completion_appends_steps_witness :
    ∃ replies : List Message,
      List.Forall₂ (fun step m => m.type = utf16 "bot" ∧
        highlightKeywords step choking.keywords = some m.text) choking.steps replies ∧
      ∀ (s : State) (rest : List (Option Topic)), s.timers = some choking :: rest →
        step toLowerCase s Event.timeout =
          some { s with messages := s.messages ++ replies, typing := false, timers := rest } :=
  let ⟨replies, h₁, _, h₃⟩ :=
    (C4_matched_completion_appends_steps toLowerCase (utf16 "choke") choking (by decide)).1
  ⟨replies, h₁, h₃⟩

/-- C5: when the matcher resolves a query, empty or not, to "no match", a submit that passes
the guard schedules a completion holding "no match", and that completion, whenever it runs,
appends exactly one reply, with the fixed fallback text. In particular this is what happens
for the query `purple elephant`. -/
theorem C5_unmatched_completion_appends_fallback (lower : Str → Str) (q : Str)
    (h : findTopic lower firstAidData q = none) :
    (∀ s : State, s.input = q → (trim q).isEmpty = false →
      (handleSend lower s).timers = s.timers ++ [none]) ∧
    (∀ (s : State) (rest : List (Option Topic)),
      s.timers = findTopic lower firstAidData q :: rest →
      step lower s Event.timeout =
        some { s with
          messages := s.messages ++ [
            { type := utf16 "bot",
              text := utf16 "Sorry, I couldn't find a first-aid guide for that. Try another keyword." }]
          typing := false
          timers := rest }) ∧
    run toLowerCase State.init [Event.change (utf16 "purple elephant"), Event.send, Event.timeout] =
      some {
        messages := [
          { type := utf16 "user", text := utf16 "purple elephant" },
          { type := utf16 "bot",
            text := utf16 "Sorry, I couldn't find a first-aid guide for that. Try another keyword." }]
        input := []
        typing := false
        timers := [] } := by
  refine ⟨?_, ?_, by decide⟩
  · intro s hs hne
    simp [handleSend, hs, hne, h]
  · intro s rest hs
    simp only [step, hs, h, timeoutCallback, fallbackText]

/-- C5 (witness): the query `purple elephant`. -/
theorem C5_unmatched_completion_appends_fallback_witness :
    utf16 "purple elephant" ≠ [] ∧
      findTopic toLowerCase firstAidData (utf16 "purple elephant") = none ∧
      ∀ (s : State) (rest : List (Option Topic)),
        s.timers = findTopic toLowerCase firstAidData (utf16 "purple elephant") :: rest →
        step toLowerCase s Event.timeout =
          some { s with
            messages := s.messages ++ [
              { type := utf16 "bot",
                text := utf16 "Sorry, I couldn't find a first-aid guide for that. Try another keyword." }]
            typing := false
            timers := rest } :=
  ⟨by decide, by decide,
    (C5_unmatched_completion_appends_fallback toLowerCase (utf16 "purple elephant")
      (by decide)).2.1⟩

/-- C6 (counterexample): the keyword `.` does not occur in `abc`, so the claim predicts the
unchanged text `abc`; the code uses the keyword as a pattern, in which `.` stands for any
character, and wraps each of the three characters. -/
theorem C6_counterexample :
    highlightKeywords (utf16 "abc") [utf16 "."] = some (utf16 "<b>a</b><b>b</b><b>c</b>") ∧
      ¬ OccursIgnoreCase (utf16 ".") (utf16 "abc") := by
  refine ⟨by decide, ?_⟩
  rintro ⟨o, ho, heq⟩
  have hlen := heq.length_eq
  match o, hlen with
  | [c], _ =>
    have hc : c ∈ utf16 "abc" := ho.subset (List.mem_singleton_self c)
    have habc : utf16 "abc" = [97, 98, 99] := by decide
    rw [habc] at hc
    simp only [List.mem_cons, List.mem_singleton, List.not_mem_nil, or_false] at hc
    rcases hc with rfl | rfl | rfl <;> exact absurd heq (by unfold EqIgnoreCase; decide)

/-- C6 (amended): for every text and every non-empty keyword `k` made of Basic Latin
characters that are not pattern syntax characters, `highlightKeywords text [k]` is the text
with the occurrences of `k`, case ignored and taken from left to right, wrapped in `<b>` and
`</b>` as they are spelled in the text, and everything else unchanged; the wording fixes that
result. For the empty keyword an empty emphasis is put before every code unit and at the end.
In particular `severe bleeding noted` with the keyword `bleeding` gives
`severe <b>bleeding</b> noted`. -/
theorem C6_highlight_single_literal_keyword (text k : Str) (hk : k ≠ [])
    (hlit : ∀ c ∈ k, c < 128 ∧ isSyntaxCharacter c = false) :
    (∃ out, highlightKeywords text [k] = some out ∧ WrapsOccurrences k text out ∧
      ∀ out', WrapsOccurrences k text out' → out' = out) ∧
    highlightKeywords text [[]] =
      some ((text.flatMap fun c => tagOpen ++ tagClose ++ [c]) ++ (tagOpen ++ tagClose)) ∧
    highlightKeywords (utf16 "severe bleeding noted") [utf16 "bleeding"] =
      some (utf16 "severe <b>bleeding</b> noted") := by
  refine ⟨?_, ?_, by decide⟩
  swap
  · rw [highlightKeywords_cons]
    exact congrArg some (replaceLoop_nil _ text (Nat.lt_succ_self _))
  obtain ⟨out, hout, hw⟩ := highlightKeywords_single_literal text k hk hlit
  exact ⟨out, hout, hw, fun out' hw' => hw'.unique hk out hw⟩

/-- C6 (witness): the keyword `Bleed` in a text that spells it in two ways. -/
theorem C6_highlight_single_literal_keyword_witness :
    ∃ out, highlightKeywords (utf16 "bleed, BLEEDING") [utf16 "Bleed"] = some out ∧
      WrapsOccurrences (utf16 "Bleed") (utf16 "bleed, BLEEDING") out ∧
      ∀ out', WrapsOccurrences (utf16 "Bleed") (utf16 "bleed, BLEEDING") out' → out' = out :=
  (C6_highlight_single_literal_keyword (utf16 "bleed, BLEEDING") (utf16 "Bleed") (by decide)
    (by decide)).1

/-- C7: a submit whose query is empty or made of white space only changes nothing: the
state after `handleSend` is the state before it, so the messages, the composing flag and the
pending completions are the same. -/
theorem C7_blank_submit_changes_nothing (lower : Str → Str) (s : State)
    (h : ∀ c ∈ s.input, isWhiteSpace c = true) :
    handleSend lower s = s ∧ step lower s Event.send = some s ∧
      (handleSend lower s).messages = s.messages ∧ (handleSend lower s).typing = s.typing ∧
      (handleSend lower s).timers = s.timers := by
  have hs : handleSend lower s = s := by simp [handleSend, trim_eq_nil s.input h]
  exact ⟨hs, by simp [step, hs], by rw [hs], by rw [hs], by rw [hs]⟩

/-- C7 (witness): a submit of a space, a tab and a line feed while a reply is pending. -/
theorem C7_blank_submit_changes_nothing_witness :
    handleSend toLowerCase
        { messages := [{ type := utf16 "user", text := utf16 "cut" }],
          input := utf16 " \t\n", typing := true, timers := [some bleeding] } =
      { messages := [{ type := utf16 "user", text := utf16 "cut" }],
        input := utf16 " \t\n", typing := true, timers := [some bleeding] } :=
  (C7_blank_submit_changes_nothing toLowerCase
    { messages := [{ type := utf16 "user", text := utf16 "cut" }],
      input := utf16 " \t\n", typing := true, timers := [some bleeding] } (by decide)).1

/-- C8 (counterexample): `cut` is submitted, then `burn` while the first reply is pending;
when the first completion runs, composing becomes false although the completion of the
second submit (holding the burn topic) has not run. -/
theorem C8_counterexample :
    (run toLowerCase State.init
        [Event.change (utf16 "cut"), Event.send, Event.change (utf16 "burn"), Event.send]).map
        (fun s => (s.typing, s.timers)) = some (true, [some bleeding, some burn]) ∧
      (run toLowerCase State.init
        [Event.change (utf16 "cut"), Event.send, Event.change (utf16 "burn"), Event.send,
          Event.timeout]).map
        (fun s => (s.typing, s.timers)) = some (false, [some burn]) := by
  constructor <;> decide

/-- C8 (amended): composing is true immediately after a submit that passes the guard and
stays true over every sequence of events without a completion; a transition takes composing
from true to false only if it is a completion; and every completion that runs, that of the
oldest pending submit, leaves composing false. -/
theorem C8_composing_until_a_completion (lower : Str → Str) (s : State)
    (hs : (trim s.input).isEmpty = false) :
    (handleSend lower s).typing = true ∧
    (handleSend lower s).timers = s.timers ++ [findTopic lower firstAidData s.input] ∧
    (∀ es : List Event, Event.timeout ∉ es →
      ∃ s', run lower (handleSend lower s) es = some s' ∧ s'.typing = true) ∧
    (∀ (s₁ s₂ : State) (e : Event), step lower s₁ e = some s₂ → s₁.typing = true →
      s₂.typing = false → e = Event.timeout) ∧
    ∀ s₁ s₂ : State, step lower s₁ Event.timeout = some s₂ →
      s₂.typing = false ∧ ∃ found, s₁.timers = found :: s₂.timers := by
  have ht : (handleSend lower s).typing = true := by simp [handleSend, hs]
  refine ⟨ht, by simp [handleSend, hs], ?_, ?_, ?_⟩
  · intro es hes
    exact run_typing_of_no_timeout lower es _ hes ht
  · intro s₁ s₂ e hstep h₁ h₂
    by_contra he
    rw [step_typing_of_ne_timeout lower s₁ s₂ e hstep he h₁] at h₂
    exact Bool.noConfusion h₂
  · intro s₁ s₂ hstep
    simp only [step] at hstep
    cases htm : s₁.timers with
    | nil => simp [htm] at hstep
    | cons found rest =>
      simp only [htm] at hstep
      obtain ⟨h₁, h₂⟩ := timeoutCallback_typing found _ s₂ hstep
      exact ⟨h₁, found, by rw [h₂]⟩

/-- C8 (witness): a submit of `cut` from the initial state. -/
theorem C8_composing_until_a_completion_witness :
    (handleSend toLowerCase { State.init with input := utf16 "cut" }).typing = true ∧
      (handleSend toLowerCase { State.init with input := utf16 "cut" }).timers =
        [] ++ [findTopic toLowerCase firstAidData (utf16 "cut")] :=
  let h := C8_composing_until_a_completion toLowerCase { State.init with input := utf16 "cut" }
    (by decide)
  ⟨h.1, h.2.1⟩

/-- C9: for every topic `T`, in particular for every topic of the knowledge base, the matcher
run with the query `T.title` on the one-topic list `[T]` returns `T`, whatever the
lowercasing function. -/
theorem C9_title_query_matches_own_topic (lower : Str → Str) (T : Topic) :
    findTopic lower [T] T.title = some T := by
  simp [findTopic, matchesItem, includes_refl]

/-- C10: for every topic `T` of the knowledge base and every keyword `k` of `T`, the matcher
run with the query `k` on the knowledge base returns the first topic in knowledge-base order
that has a keyword occurring in `k`. -/
theorem C10_keyword_query_first_topic (T : Topic) (hT : T ∈ firstAidData) (k : Str)
    (hk : k ∈ T.keywords) :
    ∃ E, IsFirstWith (HasKeywordIn k) firstAidData E ∧
      findTopic toLowerCase firstAidData k = some E := by
  have hlow : toLowerCase k = k := by
    have h := firstAidData_keywords_lowercase
    simp only [List.all_eq_true, beq_iff_eq] at h
    exact h T hT k hk
  have h := findTopic_of_keyword toLowerCase firstAidData firstAidData_noLaterKeywordInTitle
    (fun _ _ => rfl) k T hT (by rw [hlow]; exact ⟨k, hk, List.infix_rfl⟩)
  rw [hlow] at h
  exact h

/-- C10 (witness): the keyword `hot` of the burn topic. -/
theorem C10_keyword_query_first_topic_witness :
    ∃ E, IsFirstWith (HasKeywordIn (utf16 "hot")) firstAidData E ∧
      findTopic toLowerCase firstAidData (utf16 "hot") = some E :=
  C10_keyword_query_first_topic burn (by decide) (utf16 "hot") (by decide)

/-- C11: for every query that is not empty or made of white space only, the synchronous part
of the submit appends exactly one message, of type `user`, whose text is the query as it was
entered, after the earlier messages, which stay as they were. -/
theorem C11_submit_appends_raw_user_message (lower : Str → Str) (s : State)
    (h : ∃ c ∈ s.input, isWhiteSpace c = false) :
    (handleSend lower s).messages = s.messages ++ [{ type := utf16 "user", text := s.input }] ∧
      step lower s Event.send = some (handleSend lower s) := by
  simp [handleSend, step, trim_isEmpty_eq_false s.input h]

/-- C11 (witness): the query ` Cut! ` with its spaces and capital letter. -/
theorem C11_submit_appends_raw_user_message_witness :
    (handleSend toLowerCase
        { messages := [{ type := utf16 "bot", text := fallbackText }],
          input := utf16 " Cut! ", typing := false, timers := [] }).messages =
      [{ type := utf16 "bot", text := fallbackText },
        { type := utf16 "user", text := utf16 " Cut! " }] :=
  (C11_submit_appends_raw_user_message toLowerCase
    { messages := [{ type := utf16 "bot", text := fallbackText }],
      input := utf16 " Cut! ", typing := false, timers := [] } ⟨67, by decide, by decide⟩).1

/-- C12: the message log is append-only. For every state and every transition that is
possible in it (a change of the text area, a submit, the completion of the oldest pending
submit), the messages before the transition are a prefix of the messages after it. -/
theorem C12_messages_append_only (lower : Str → Str) (s s' : State) (e : Event)
    (h : step lower s e = some s') : s.messages <+: s'.messages := by
  obtain ⟨added, hadd, -⟩ := step_messages lower s s' e h
  rw [hadd]
  exact List.prefix_append _ _

/-- C12 (witness): a second submit while the first reply is pending. -/
theorem C12_messages_append_only_witness :
    [({ type := utf16 "user", text := utf16 "cut" } : Message)] <+:
      (handleSend toLowerCase
        { messages := [{ type := utf16 "user", text := utf16 "cut" }],
          input := utf16 "burn", typing := true, timers := [some bleeding] }).messages :=
  C12_messages_append_only toLowerCase
    { messages := [{ type := utf16 "user", text := utf16 "cut" }],
      input := utf16 "burn", typing := true, timers := [some bleeding] } _ Event.send rfl

/-- C13: a submit that passes the guard is made in any state `s`, and any events follow,
among them as many completions as were pending in `s`. Then the oldest pending completion is
the one of that submit, it can run, and it appends its replies at the end of the log, while
the user message of the submit stands at the index `s.messages.length`, which is smaller than
the index of every one of these replies. -/
theorem C13_user_message_before_own_replies (lower : Str → Str) (s s₂ : State)
    (es : List Event) (hguard : (trim s.input).isEmpty = false)
    (hrun : run lower (handleSend lower s) es = some s₂)
    (hcount : es.count Event.timeout = s.timers.length) :
    s₂.timers.head? = some (findTopic lower firstAidData s.input) ∧
    ∃ s₃ replies, step lower s₂ Event.timeout = some s₃ ∧
      s₃.messages = s₂.messages ++ replies ∧
      s₃.messages[s.messages.length]? = some { type := utf16 "user", text := s.input } ∧
      ∀ j, j < replies.length →
        s₃.messages[s₂.messages.length + j]? = replies[j]? ∧
          s.messages.length < s₂.messages.length + j := by
  have hsend : handleSend lower s =
      { messages := s.messages ++ [{ type := utf16 "user", text := s.input }]
        input := []
        typing := true
        timers := s.timers ++ [findTopic lower firstAidData s.input] } := by
    simp [handleSend, hguard]
  obtain ⟨added, hadd⟩ := run_timers lower es _ s₂ hrun (by rw [hsend, hcount]; simp)
  rw [hsend, hcount] at hadd
  simp only [List.drop_left] at hadd
  have hhead : s₂.timers = findTopic lower firstAidData s.input :: added := by simpa using hadd
  obtain ⟨rest, hrest⟩ := run_messages_extend lower es _ s₂ hrun
  rw [hsend] at hrest
  simp only at hrest
  obtain ⟨s₃, hs₃⟩ := timeoutCallback_isSome (findTopic lower firstAidData s.input)
    (fun item hitem => List.mem_of_find?_eq_some hitem) { s₂ with timers := added }
  have hstep : step lower s₂ Event.timeout = some s₃ := by simp only [step, hhead, hs₃]
  obtain ⟨replies, hrep, -⟩ := step_messages lower s₂ s₃ Event.timeout hstep
  refine ⟨by rw [hhead]; rfl, s₃, replies, hstep, hrep, ?_, ?_⟩
  · rw [hrep, ← hrest, List.append_assoc, List.append_assoc,
      List.getElem?_append_right (Nat.le_refl _)]
    simp
  · intro j _
    constructor
    · rw [hrep, List.getElem?_append_right (Nat.le_add_right _ _)]
      simp
    · have := congrArg List.length hrest
      simp only [List.length_append, List.length_singleton] at this
      omega

/-- C13 (witness): `burn` is submitted while the reply to `cut` is pending; the first
completion runs before the one of `burn`. -/
theorem C13_user_message_before_own_replies_witness :
    ∃ s₂, run toLowerCase
        (handleSend toLowerCase
          { messages := [{ type := utf16 "user", text := utf16 "cut" }],
            input := utf16 "burn", typing := true, timers := [some bleeding] })
        [Event.timeout] = some s₂ ∧
      s₂.timers.head? = some (findTopic toLowerCase firstAidData (utf16 "burn")) ∧
      ∃ s₃ replies, step toLowerCase s₂ Event.timeout = some s₃ ∧
        s₃.messages = s₂.messages ++ replies ∧
        s₃.messages[1]? = some { type := utf16 "user", text := utf16 "burn" } ∧
        ∀ j, j < replies.length →
          s₃.messages[s₂.messages.length + j]? = replies[j]? ∧ 1 < s₂.messages.length + j := by
  obtain ⟨s₂, hs₂⟩ := timeoutCallback_isSome (some bleeding)
    (fun item hitem => by cases hitem; decide)
    { messages := [{ type := utf16 "user", text := utf16 "cut" },
        { type := utf16 "user", text := utf16 "burn" }],
      input := [], typing := true,
      timers := [findTopic toLowerCase firstAidData (utf16 "burn")] }
  have hrun : run toLowerCase
      (handleSend toLowerCase
        { messages := [{ type := utf16 "user", text := utf16 "cut" }],
          input := utf16 "burn", typing := true, timers := [some bleeding] })
      [Event.timeout] = some s₂ := by
    have hsend : handleSend toLowerCase
        { messages := [{ type := utf16 "user", text := utf16 "cut" }],
          input := utf16 "burn", typing := true, timers := [some bleeding] } =
        { messages := [{ type := utf16 "user", text := utf16 "cut" },
            { type := utf16 "user", text := utf16 "burn" }],
          input := [], typing := true,
          timers := [some bleeding, findTopic toLowerCase firstAidData (utf16 "burn")] } := by
      decide
    rw [hsend]
    simp only [run, step, hs₂, Option.some_bind]
  exact ⟨s₂, hrun, C13_user_message_before_own_replies toLowerCase
    { messages := [{ type := utf16 "user", text := utf16 "cut" }],
      input := utf16 "burn", typing := true, timers := [some bleeding] } s₂ [Event.timeout]
    (by decide) hrun (by decide)⟩

/-- C14: the knowledge base is well formed. The `id` values are pairwise distinct, every
topic has at least one keyword, every keyword is its own lowercase form, and every topic has
at least one step. -/
theorem C14_knowledge_base_well_formed :
    (firstAidData.map Topic.id).Nodup ∧
      ∀ item ∈ firstAidData, item.keywords ≠ [] ∧ (∀ k ∈ item.keywords, toLowerCase k = k) ∧
        item.steps ≠ [] := by
  refine ⟨by decide, ?_⟩
  have h : (firstAidData.all fun item => !item.keywords.isEmpty && !item.steps.isEmpty) = true := by
    decide
  have hl := firstAidData_keywords_lowercase
  simp only [List.all_eq_true, Bool.and_eq_true, Bool.not_eq_true', beq_iff_eq] at h hl
  intro item hitem
  refine ⟨fun hk => ?_, hl item hitem, fun hs => ?_⟩
  · have := (h item hitem).1
    simp [hk] at this
  · have := (h item hitem).2
    simp [hs] at this

/-- C15 (counterexample): after the query `purple elephant` and its completion the log holds
a message of type `user` and a message of type `bot`; the type `assistant` of the claim does
not occur in the code. -/
theorem C15_counterexample :
    (run toLowerCase State.init
        [Event.change (utf16 "purple elephant"), Event.send, Event.timeout]).map
        (fun s => s.messages.map Message.type) = some [utf16 "user", utf16 "bot"] ∧
      utf16 "bot" ≠ utf16 "assistant" := by
  constructor <;> decide

/-- C15 (amended): every message of every state reached from the initial state has type
`user` or `bot`; a submit that passes the guard appends one message of type `user`, and a
completion appends only messages of type `bot`. -/
theorem C15_message_types_user_or_bot (lower : Str → Str) (es : List Event) (s : State)
    (h : run lower State.init es = some s) :
    (∀ m ∈ s.messages, m.type = utf16 "user" ∨ m.type = utf16 "bot") ∧
    (∀ s₁ : State, (trim s₁.input).isEmpty = false →
      (handleSend lower s₁).messages =
        s₁.messages ++ [{ type := utf16 "user", text := s₁.input }]) ∧
    ∀ s₁ s₂ : State, step lower s₁ Event.timeout = some s₂ →
      ∃ added, s₂.messages = s₁.messages ++ added ∧ ∀ m ∈ added, m.type = utf16 "bot" := by
  refine ⟨run_message_types lower es State.init s h (by simp [State.init]), ?_, ?_⟩
  · intro s₁ hs₁
    simp [handleSend, hs₁]
  · intro s₁ s₂ hstep
    obtain ⟨added, hadd, -, htime, -⟩ := step_messages lower s₁ s₂ Event.timeout hstep
    exact ⟨added, hadd, htime rfl⟩

/-- C15 (witness): the run for the query `burn`. -/
theorem C15_message_types_user_or_bot_witness :
    ∃ s, run toLowerCase State.init [Event.change (utf16 "burn"), Event.send] = some s ∧
      ∀ m ∈ s.messages, m.type = utf16 "user" ∨ m.type = utf16 "bot" :=
  ⟨_, rfl, (C15_message_types_user_or_bot toLowerCase
    [Event.change (utf16 "burn"), Event.send] _ rfl).1⟩

/-- C16: highlighting is a left fold over the keyword list. With no keyword the text is
returned as it is, and with the keywords `ks ++ [k]` the keyword `k` is applied to the result
for `ks`, markup included: with the keywords `bleed`, `b` the second keyword is found in the
tags put in for the first. -/
theorem C16_highlight_left_fold (text : Str) (ks : List Str) (k : Str) :
    highlightKeywords text [] = some text ∧
      highlightKeywords text (ks ++ [k]) =
        (highlightKeywords text ks).bind (fun t => highlightKeywords t [k]) ∧
      highlightKeywords (utf16 "bleeding") [utf16 "bleed", utf16 "b"] =
        some (utf16 "<<b>b</b>><b>b</b>leed</<b>b</b>>ing") := by
  refine ⟨rfl, ?_, by decide⟩
  simp only [highlightKeywords, List.foldlM_append]
  rfl

/-- C17: for every topic `T` of the knowledge base and every step of `T`, the highlighted
step gives the step back when every `<b>` and `</b>` is deleted, and its tags are balanced and
never nested: no keyword of the knowledge base is found inside or across the markup put in
for an earlier keyword. -/
theorem C17_highlighted_steps_clean (T : Topic) (hT : T ∈ firstAidData) (step : Str)
    (hs : step ∈ T.steps) :
    ∃ out, highlightKeywords step T.keywords = some out ∧ stripTags out = step ∧
      tagsAlternate false out = true := by
  have hclean : stepHighlightClean T step = true := by
    simp only [firstAidData, List.mem_cons, List.mem_singleton, List.not_mem_nil, or_false] at hT
    rcases hT with rfl | rfl | rfl | rfl
    · exact List.all_eq_true.1 bleeding_steps_clean step hs
    · exact List.all_eq_true.1 choking_steps_clean step hs
    · exact List.all_eq_true.1 burn_steps_clean step hs
    · exact List.all_eq_true.1 cpr_steps_clean step hs
  unfold stepHighlightClean at hclean
  cases hout : highlightKeywords step T.keywords with
  | none => simp [hout] at hclean
  | some out =>
    simp only [hout, Bool.and_eq_true, beq_iff_eq] at hclean
    exact ⟨out, rfl, hclean.1, hclean.2⟩

/-- C17 (witness): the second step of the CPR topic, in which two keywords are found. -/
theorem C17_highlighted_steps_clean_witness :
    ∃ out,
      highlightKeywords (utf16 "Check responsiveness and breathing. If not breathing, start CPR.")
        cpr.keywords = some out ∧
      stripTags out = utf16 "Check responsiveness and breathing. If not breathing, start CPR." ∧
      tagsAlternate false out = true :=
  C17_highlighted_steps_clean cpr (by decide)
    (utf16 "Check responsiveness and breathing. If not breathing, start CPR.") (by decide)

/-- C18: no keyword of the knowledge base is shadowed. For every topic `T` of the knowledge
base and every keyword `k` of `T`, the matcher run with the query `k` returns `T`: it is the
first topic with a keyword occurring in `k` or a lowercased title containing `k`. -/
theorem C18_no_keyword_shadowed (T : Topic) (hT : T ∈ firstAidData) (k : Str)
    (hk : k ∈ T.keywords) :
    findTopic toLowerCase firstAidData k = some T ∧
      IsFirstWith (TitleContainsMatches toLowerCase k) firstAidData T := by
  have h : (firstAidData.all fun item => item.keywords.all fun k' =>
      findTopic toLowerCase firstAidData k' == some item) = true := by decide
  simp only [List.all_eq_true, beq_iff_eq] at h
  have hfind := h T hT k hk
  have hlow : toLowerCase k = k := by
    have hl := firstAidData_keywords_lowercase
    simp only [List.all_eq_true, beq_iff_eq] at hl
    exact hl T hT k hk
  refine ⟨hfind, ?_⟩
  have := (find?_eq_some_iff_isFirstWith _ _ (matchesItem_iff toLowerCase (toLowerCase k))
    firstAidData T).1 hfind
  rwa [hlow] at this

/-- C18 (witness): the keyword `unconscious` of the last topic. -/
theorem C18_no_keyword_shadowed_witness :
    findTopic toLowerCase firstAidData (utf16 "unconscious") = some cpr ∧
      IsFirstWith (TitleContainsMatches toLowerCase (utf16 "unconscious")) firstAidData cpr :=
  C18_no_keyword_shadowed cpr (by decide) (utf16 "unconscious") (by decide)

/-- C19: when the lowercased query contains no keyword of any topic, the matcher returns the
first topic in list order whose lowercased title contains the lowercased query, and "no
match" when there is none. The queries `adult` and `e` contain no keyword of the knowledge
base and are resolved to the choking topic and to the bleeding topic. -/
theorem C19_title_only_match (lower : Str → Str) (data : List Topic) (q : Str)
    (h : ∀ item ∈ data, ¬ HasKeywordIn (lower q) item) :
    (∀ item, findTopic lower data q = some item ↔
      IsFirstWith (fun it => lower q <:+: lower it.title) data item) ∧
    (findTopic lower data q = none ↔ ∀ item ∈ data, ¬ lower q <:+: lower item.title) ∧
    (firstAidData.all fun it => !hasKeyword (toLowerCase (utf16 "adult")) it &&
      !hasKeyword (toLowerCase (utf16 "e")) it) = true ∧
    findTopic toLowerCase firstAidData (utf16 "adult") = some choking ∧
    findTopic toLowerCase firstAidData (utf16 "e") = some bleeding := by
  have hiff : ∀ it ∈ data, TitleContainsMatches lower (lower q) it ↔
      lower q <:+: lower it.title := fun it hit =>
    ⟨fun hm => hm.resolve_left (h it hit), Or.inr⟩
  refine ⟨fun item => ?_, ?_, by decide, by decide, by decide⟩
  · exact (find?_eq_some_iff_isFirstWith _ _ (matchesItem_iff lower (lower q)) data item).trans
      (isFirstWith_congr _ _ data item hiff)
  · simp only [findTopic, List.find?_eq_none, matchesItem_iff]
    exact ⟨fun hn it hit ht => hn it hit ((hiff it hit).2 ht),
      fun hn it hit hm => hn it hit ((hiff it hit).1 hm)⟩

/-- C19 (witness): the query `adult`. -/
theorem C19_title_only_match_witness :
    findTopic toLowerCase firstAidData (utf16 "adult") = some choking ↔
      IsFirstWith (fun it => toLowerCase (utf16 "adult") <:+: toLowerCase it.title)
        firstAidData choking :=
  (C19_title_only_match toLowerCase firstAidData (utf16 "adult") (by
    have h : (firstAidData.all fun it => !hasKeyword (toLowerCase (utf16 "adult")) it) = true := by
      decide
    simp only [List.all_eq_true, Bool.not_eq_true'] at h
    intro item hitem hk
    have := h item hitem
    rw [(hasKeyword_iff _ _).2 hk] at this
    exact Bool.noConfusion this)).1 choking

/-- C20: a longer keyword listed after its own prefix is never emphasised as a whole. For
every text, the text highlighted with the keywords of the bleeding topic holds no occurrence,
in any letter case, of `<b>bleeding</b>` or of `<b>bleeds</b>`: `bleed` is wrapped first, so
that no `bleed` followed by `i` or by `s` is left. The first step of the bleeding topic is
rendered with `<b>bleed</b>ing`. -/
theorem C20_longer_keyword_never_wrapped (text : Str) :
    (∃ out, highlightKeywords text bleeding.keywords = some out ∧
      ¬ OccursIgnoreCase (utf16 "<b>bleeding</b>") out ∧
      ¬ OccursIgnoreCase (utf16 "<b>bleeds</b>") out ∧
      ¬ OccursIgnoreCase (utf16 "bleedi") out ∧ ¬ OccursIgnoreCase (utf16 "bleeds") out) ∧
    highlightKeywords
        (utf16 "Call emergency services immediately if bleeding is severe or spurting.")
        bleeding.keywords =
      some (utf16
        "Call emergency services immediately if <b>bleed</b>ing is severe or spurting.") := by
  refine ⟨?_, highlight_first_bleeding_step⟩
  have hc := firstAidData_keywords_compile
  simp only [List.all_eq_true] at hc
  obtain ⟨out, hout⟩ := highlightKeywords_isSome bleeding.keywords
    (hc bleeding (by decide)) text
  have hi : ¬ OccursIgnoreCase (utf16 "bleed" ++ utf16 "i") out :=
    not_occurs_after_bleeding_keywords text out _ (by unfold PlainWord; decide) (by decide) hout
  have hs : ¬ OccursIgnoreCase (utf16 "bleed" ++ utf16 "s") out :=
    not_occurs_after_bleeding_keywords text out _ (by unfold PlainWord; decide) (by decide) hout
  refine ⟨out, hout, fun h => hi ?_, fun h => hs ?_, hi, hs⟩
  · exact occurs_of_occurs_append (utf16 "<b>") _ (utf16 "ng</b>") out h
  · exact occurs_of_occurs_append (utf16 "<b>") _ (utf16 "</b>") out h

end NoahAid
